import Mathlib

/-!
# Verification of the minesweeper board engine

A shallow embedding of `minesweeper/board.py` (class `Board`): the game
state, lazy mine placement (`_put_mines`), neighbor enumeration
(`get_neighbors`), the flood-fill reveal (`_open_tiles`), flag toggling
(`_check_tile`), the left-click dispatcher (`_open_tile`, including the
chord rule), and the right-click handler (`on_mouse_down`).

Modelling conventions:
* numpy arrays become total functions `Nat → Nat → _`; the game only ever
  reads them at in-grid indices, and all theorems quantify over in-grid
  cells only.
* Python ints that may go negative (`tiles_to_open`, `n_mines_left`)
  become `Int`.
* `random.sample(allowed_positions, n_mines)` is modelled by a parameter
  `sel : List (Nat × Nat)` together with the predicate `SampleValid`
  (distinct positions, right length, all drawn from `allowed_positions`).
* the `while queue:` loop of `_open_tiles` is given explicit fuel
  `2 * n_rows * n_cols + 1`; `open_tiles_loop_fuel_irrel` proves the loop
  halts within this budget, i.e. any larger fuel computes the same board.
* `game_status` keeps the source's string values; `mine_count` is `None`
  in Python before placement and is modelled as the all-zero function,
  which the game never reads before `_put_mines` overwrites it.
* pygame rendering, the timer (`start_time`, `time`), and the
  status-change callback are omitted: they do not affect the board state
  the claims are about.
-/

/-- `Board.TILE_CLOSED` -/
def TILE_CLOSED : Nat := 0
/-- `Board.TILE_OPENED` -/
def TILE_OPENED : Nat := 1
/-- `Board.TILE_CHECKED` -/
def TILE_CHECKED : Nat := 2

/-- `LEFT_BUTTON` -/
def LEFT_BUTTON : Nat := 1
/-- `RIGHT_BUTTON` -/
def RIGHT_BUTTON : Nat := 3

/-- The mutable state of `Board` (`Board.__init__`), restricted to the
fields the game logic reads and writes. -/
structure Board where
  n_rows : Nat
  n_cols : Nat
  n_mines : Nat
  n_mines_left : Int
  is_mine : Nat → Nat → Bool
  mine_count : Nat → Nat → Nat
  tile_status : Nat → Nat → Nat
  losing_indices : Option (Nat × Nat)
  tiles_to_open : Int
  game_status : String

/-- Pointwise update of a two-index array (`a[i, j] = v`). -/
def update2 {α : Type} (f : Nat → Nat → α) (i j : Nat) (v : α) : Nat → Nat → α :=
  fun k l => if k = i ∧ l = j then v else f k l

/-- `Board.__init__` / the state right after `reset`: no mines placed,
`mine_count` not yet computed, every tile closed. -/
def board_init (n_rows n_cols n_mines : Nat) : Board :=
  { n_rows := n_rows
    n_cols := n_cols
    n_mines := n_mines
    n_mines_left := (n_mines : Int)
    is_mine := fun _ _ => false
    mine_count := fun _ _ => 0
    tile_status := fun _ _ => TILE_CLOSED
    losing_indices := none
    tiles_to_open := (n_rows * n_cols : Int) - (n_mines : Int)
    game_status := "before_start" }

/-- `Board.get_neighbors`: pairs of indices of neighbor cells, in the
exact order the Python code appends them. -/
def get_neighbors (n_rows n_cols i j : Nat) : List (Nat × Nat) :=
  (if 0 < i then
      [(i - 1, j)] ++ (if 0 < j then [(i - 1, j - 1)] else [])
        ++ (if j < n_cols - 1 then [(i - 1, j + 1)] else [])
    else [])
  ++ (if 0 < j then [(i, j - 1)] else [])
  ++ (if j < n_cols - 1 then [(i, j + 1)] else [])
  ++ (if i < n_rows - 1 then
      [(i + 1, j)] ++ (if 0 < j then [(i + 1, j - 1)] else [])
        ++ (if j < n_cols - 1 then [(i + 1, j + 1)] else [])
    else [])

/-- The `allowed_positions` list built by `Board._put_mines`: a cell is
eligible when any of the three conditions of the `any((...))` holds. -/
def allowed_positions (n_rows n_cols n_mines i_click j_click : Nat) : List (Nat × Nat) :=
  (List.range n_rows).flatMap fun i =>
    ((List.range n_cols).filter fun (j : Nat) =>
      decide (((i : Int) - (i_click : Int)).natAbs > 1
          ∨ ((j : Int) - (j_click : Int)).natAbs > 1
          ∨ ((n_mines : Int) > (n_rows * n_cols : Int) - 9
              ∧ (i ≠ i_click ∨ j ≠ j_click))
          ∨ n_mines = n_rows * n_cols)).map fun j => (i, j)

/-- What `random.sample(allowed_positions, n_mines)` guarantees about the
selected positions: `n_mines` distinct elements of `allowed_positions`. -/
def SampleValid (b : Board) (sel : List (Nat × Nat)) (i_click j_click : Nat) : Prop :=
  sel.Nodup ∧ sel.length = b.n_mines ∧
    ∀ p ∈ sel, p ∈ allowed_positions b.n_rows b.n_cols b.n_mines i_click j_click

/-- `self.mine_count.flat[ind] += 1` for each flat index of the list: the
per-mine neighbor-counter increment of `_put_mines` (flat index
`k * n_cols + l` of an in-grid cell addresses exactly cell `(k, l)`). -/
def bump (mc : Nat → Nat → Nat) (ps : List (Nat × Nat)) : Nat → Nat → Nat :=
  ps.foldl (fun m p => update2 m p.1 p.2 (m p.1 p.2 + 1)) mc

/-- `Board._put_mines`, with the random draw `sel` passed explicitly:
marks the selected positions mined and recomputes `mine_count` from
zero by bumping every neighbor of every mine. -/
def put_mines (b : Board) (sel : List (Nat × Nat)) : Board :=
  { b with
    is_mine := fun i j => decide ((i, j) ∈ sel) || b.is_mine i j
    mine_count :=
      sel.foldl (fun mc p => bump mc (get_neighbors b.n_rows b.n_cols p.1 p.2))
        (fun _ _ => 0) }

/-- Opening one tile inside `_open_tiles`: set it `TILE_OPENED` and
decrement `tiles_to_open`. -/
def open_one (b : Board) (i j : Nat) : Board :=
  { b with
    tile_status := update2 b.tile_status i j TILE_OPENED
    tiles_to_open := b.tiles_to_open - 1 }

/-- The body of the inner `for k, l in neighbors` loop of `_open_tiles`,
as a fold over an arbitrary cell list: open every still-closed listed
cell and collect it for the queue. -/
def open_fold (b : Board) (acc L : List (Nat × Nat)) : Board × List (Nat × Nat) :=
  L.foldl
    (fun acc p =>
      if acc.1.tile_status p.1 p.2 = TILE_CLOSED then
        (open_one acc.1 p.1 p.2, acc.2 ++ [p])
      else acc)
    (b, acc)

/-- The inner `for k, l in neighbors` loop of `_open_tiles`: open every
still-closed neighbor and collect it for the queue. -/
def open_tiles_step (b : Board) (i j : Nat) : Board × List (Nat × Nat) :=
  open_fold b [] (get_neighbors b.n_rows b.n_cols i j)

/-- The `while queue:` loop of `_open_tiles`, with explicit fuel. -/
def open_tiles_loop : Nat → Board → List (Nat × Nat) → Board
  | 0, b, _ => b
  | _ + 1, b, [] => b
  | fuel + 1, b, (i, j) :: rest =>
    if 0 < b.mine_count i j then open_tiles_loop fuel b rest
    else
      let s := open_tiles_step b i j
      open_tiles_loop fuel s.1 (rest ++ s.2)

/-- `Board._open_tiles`: seed the queue with the clicked tile, run the
wave algorithm, then upon `tiles_to_open == 0` declare victory, zero the
mine counter and flag every mine for display. -/
def open_tiles (b : Board) (i j : Nat) : Board :=
  let b1 := open_one b i j
  let b2 := open_tiles_loop (2 * b.n_rows * b.n_cols + 1) b1 [(i, j)]
  if b2.tiles_to_open = 0 then
    { b2 with
      game_status := "victory"
      n_mines_left := 0
      tile_status := fun k l =>
        if b2.is_mine k l then TILE_CHECKED else b2.tile_status k l }
  else b2

/-- `Board._check_tile` (right-click action). -/
def check_tile (b : Board) (i j : Nat) : Board :=
  if b.tile_status i j = TILE_CLOSED then
    { b with
      tile_status := update2 b.tile_status i j TILE_CHECKED
      n_mines_left := b.n_mines_left - 1 }
  else if b.tile_status i j = TILE_CHECKED then
    { b with
      tile_status := update2 b.tile_status i j TILE_CLOSED
      n_mines_left := b.n_mines_left + 1 }
  else b

/-- The `for k, l in neighbors` loop of the chord branch of
`_open_tile`: skip non-closed neighbors, detonate on the first closed
mine (game over, record `losing_indices`, open the tile, stop), and
flood-fill every closed safe neighbor. -/
def chord_loop : Board → List (Nat × Nat) → Board
  | b, [] => b
  | b, (k, l) :: rest =>
    if b.tile_status k l = TILE_CLOSED then
      if b.is_mine k l then
        { b with
          losing_indices := some (k, l)
          game_status := "game_over"
          tile_status := update2 b.tile_status k l TILE_OPENED }
      else chord_loop (open_tiles b k l) rest
    else chord_loop b rest

/-- `Board._open_tile` (left-click action), with the random draw `sel`
used if this click triggers mine placement. -/
def open_tile (b : Board) (sel : List (Nat × Nat)) (i j : Nat) : Board :=
  let status := b.tile_status i j
  if status = TILE_CHECKED then b
  else if b.is_mine i j then
    { b with
      game_status := "game_over"
      losing_indices := some (i, j)
      tile_status := update2 b.tile_status i j TILE_OPENED }
  else if status = TILE_CLOSED then
    let b' := if b.game_status = "before_start" then
        { put_mines b sel with game_status := "running" }
      else b
    open_tiles b' i j
  else if b.mine_count i j = 0 then b
  else
    let neighbors := get_neighbors b.n_rows b.n_cols i j
    let checked_count :=
      neighbors.countP fun p => decide (b.tile_status p.1 p.2 = TILE_CHECKED)
    if checked_count = b.mine_count i j then chord_loop b neighbors else b

/-- `Board.on_mouse_down`, with the tile indices at the mouse cursor
(`_get_tile_indices_at_mouse`) passed in as the two `Option` arguments. -/
def on_mouse_down (b : Board) (button : Nat) (i j : Option Nat) : Board :=
  if b.game_status = "before_start" ∨ b.game_status = "victory"
      ∨ b.game_status = "game_over" then b
  else if button = RIGHT_BUTTON then
    match i, j with
    | some i, some j => check_tile b i j
    | _, _ => b
  else b

/-! ## Derived notions used to state the properties -/

/-- Cell `(i, j)` is on the grid. -/
def inGrid (b : Board) (p : Nat × Nat) : Prop :=
  p.1 < b.n_rows ∧ p.2 < b.n_cols

instance (b : Board) (p : Nat × Nat) : Decidable (inGrid b p) := by
  unfold inGrid; infer_instance

/-- The grid as a finite set of index pairs. -/
def gridF (b : Board) : Finset (Nat × Nat) :=
  Finset.range b.n_rows ×ˢ Finset.range b.n_cols

/-- The grid as a list of index pairs (used for decidability of the
bounded-quantifier invariants below). -/
def gridList (n_rows n_cols : Nat) : List (Nat × Nat) :=
  (List.range n_rows).flatMap fun i => (List.range n_cols).map fun j => (i, j)

theorem mem_gridList {n_rows n_cols : Nat} {p : Nat × Nat} :
    p ∈ gridList n_rows n_cols ↔ p.1 < n_rows ∧ p.2 < n_cols := by
  cases p with
  | mk i j =>
    simp [gridList, List.mem_flatMap, List.mem_map, List.mem_range]

theorem ball_gridList_iff {n_rows n_cols : Nat} (P : Nat → Nat → Prop) :
    (∀ p ∈ gridList n_rows n_cols, P p.1 p.2) ↔
      ∀ i < n_rows, ∀ j < n_cols, P i j := by
  constructor
  · intro h i hi j hj
    exact h (i, j) (mem_gridList.mpr ⟨hi, hj⟩)
  · intro h p hp
    exact h p.1 (mem_gridList.mp hp).1 p.2 (mem_gridList.mp hp).2

/-- The in-grid cells that are closed (any content). -/
def closedAll (b : Board) : Finset (Nat × Nat) :=
  (gridF b).filter fun p => b.tile_status p.1 p.2 = TILE_CLOSED

/-- The in-grid cells that are not mined and not yet opened: the cells
the `tiles_to_open` counter counts on reachable boards (flagging never
decrements the counter, so flagged safe cells are still counted). -/
def unopenedSafe (b : Board) : Finset (Nat × Nat) :=
  (gridF b).filter fun p =>
    b.is_mine p.1 p.2 = false ∧ b.tile_status p.1 p.2 ≠ TILE_OPENED

/-- The number of mined cells among the neighbors of `(i, j)`. -/
def minedNeighborCount (b : Board) (i j : Nat) : Nat :=
  ((get_neighbors b.n_rows b.n_cols i j).filter fun p => b.is_mine p.1 p.2).length

/-- The adjacency counts are correct for every in-grid cell. -/
def countsOK (b : Board) : Prop :=
  ∀ i < b.n_rows, ∀ j < b.n_cols, b.mine_count i j = minedNeighborCount b i j

instance (b : Board) : Decidable (countsOK b) :=
  decidable_of_iff _ (ball_gridList_iff
    fun i j => b.mine_count i j = minedNeighborCount b i j)

/-- No in-grid mined cell is open. -/
def noOpenMine (b : Board) : Prop :=
  ∀ i < b.n_rows, ∀ j < b.n_cols,
    b.is_mine i j = true → b.tile_status i j ≠ TILE_OPENED

instance (b : Board) : Decidable (noOpenMine b) :=
  decidable_of_iff _ (ball_gridList_iff
    fun i j => b.is_mine i j = true → b.tile_status i j ≠ TILE_OPENED)

/-- The state invariant of a game in progress: status `running`, correct
adjacency counts, `tiles_to_open` counting exactly the safe cells not
yet opened (closed or flagged — `_check_tile` never touches the
counter), and no opened mine. -/
def RunningInv (b : Board) : Prop :=
  b.game_status = "running" ∧ countsOK b ∧
    b.tiles_to_open = ((unopenedSafe b).card : Int) ∧ noOpenMine b

instance (b : Board) : Decidable (RunningInv b) := by
  unfold RunningInv; infer_instance

/-- The state of a board between construction/reset and the first click:
status `before_start`, every in-grid tile closed, no mines anywhere, and
the initial `tiles_to_open` counter. -/
def BeforeStartInv (b : Board) : Prop :=
  b.game_status = "before_start" ∧
    (∀ i < b.n_rows, ∀ j < b.n_cols, b.tile_status i j = TILE_CLOSED) ∧
    (∀ i < b.n_rows, ∀ j < b.n_cols, b.is_mine i j = false) ∧
    b.tiles_to_open = (b.n_rows * b.n_cols : Int) - (b.n_mines : Int)

instance (b : Board) (sel : List (Nat × Nat)) (i j : Nat) :
    Decidable (SampleValid b sel i j) := by
  unfold SampleValid; infer_instance

/-- Every opened zero-count in-grid cell has all of its neighbors
non-closed, except possibly cells still on the work queue `q`. -/
def ZeroClosure (b : Board) (q : List (Nat × Nat)) : Prop :=
  ∀ i < b.n_rows, ∀ j < b.n_cols,
    b.tile_status i j = TILE_OPENED → b.mine_count i j = 0 →
      (i, j) ∈ q ∨ ∀ p ∈ get_neighbors b.n_rows b.n_cols i j,
        b.tile_status p.1 p.2 ≠ TILE_CLOSED

instance (b : Board) (q : List (Nat × Nat)) : Decidable (ZeroClosure b q) :=
  decidable_of_iff _ (ball_gridList_iff
    fun i j => b.tile_status i j = TILE_OPENED → b.mine_count i j = 0 →
      (i, j) ∈ q ∨ ∀ p ∈ get_neighbors b.n_rows b.n_cols i j,
        b.tile_status p.1 p.2 ≠ TILE_CLOSED)

instance (b : Board) : Decidable (BeforeStartInv b) := by
  unfold BeforeStartInv
  have i1 : Decidable (∀ i < b.n_rows, ∀ j < b.n_cols,
      b.tile_status i j = TILE_CLOSED) :=
    decidable_of_iff _ (ball_gridList_iff fun i j => b.tile_status i j = TILE_CLOSED)
  have i2 : Decidable (∀ i < b.n_rows, ∀ j < b.n_cols,
      b.is_mine i j = false) :=
    decidable_of_iff _ (ball_gridList_iff fun i j => b.is_mine i j = false)
  exact instDecidableAnd

/-! ## Specification predicates and example boards -/

/-- Everything `open_fold` does: static fields untouched, statuses of
listed closed cells set to `TILE_OPENED`, the opened cells appended to
the accumulator in order, and `tiles_to_open` decremented once per
newly opened cell. -/
structure FoldSpec (b : Board) (acc L : List (Nat × Nat))
    (r : Board × List (Nat × Nat)) : Prop where
  rows : r.1.n_rows = b.n_rows
  cols : r.1.n_cols = b.n_cols
  mines : r.1.n_mines = b.n_mines
  mines_left : r.1.n_mines_left = b.n_mines_left
  mine_fun : r.1.is_mine = b.is_mine
  counts : r.1.mine_count = b.mine_count
  status_game : r.1.game_status = b.game_status
  losing : r.1.losing_indices = b.losing_indices
  status : ∀ k l, r.1.tile_status k l =
    if (k, l) ∈ L ∧ b.tile_status k l = TILE_CLOSED then TILE_OPENED
    else b.tile_status k l
  queue : r.2 = acc ++ L.filter fun p => decide (b.tile_status p.1 p.2 = TILE_CLOSED)
  ttop : r.1.tiles_to_open = b.tiles_to_open -
    ((L.filter fun p => decide (b.tile_status p.1 p.2 = TILE_CLOSED)).length : Int)

/-- The queue discipline of `_open_tiles`: every queued cell is on the
grid, not mined, and already opened. -/
def QueueOK (b : Board) (q : List (Nat × Nat)) : Prop :=
  ∀ p ∈ q, (p.1 < b.n_rows ∧ p.2 < b.n_cols) ∧ b.is_mine p.1 p.2 = false ∧
    b.tile_status p.1 p.2 = TILE_OPENED

/-- Everything one full run of the `while queue:` loop guarantees,
relative to its entry state `b` and entry queue `q`: static fields are
untouched, tile statuses only ever go from closed to opened (and only at
in-grid, unmined cells), the difference `tiles_to_open - #unopenedSafe`
is invariant, and the zero-region closure property is restored once the
queue drains. -/
structure LoopSpec (b : Board) (q : List (Nat × Nat)) (r : Board) : Prop where
  rows : r.n_rows = b.n_rows
  cols : r.n_cols = b.n_cols
  mines : r.n_mines = b.n_mines
  mines_left : r.n_mines_left = b.n_mines_left
  mine_fun : r.is_mine = b.is_mine
  counts : r.mine_count = b.mine_count
  status_game : r.game_status = b.game_status
  losing : r.losing_indices = b.losing_indices
  mono : ∀ k l, r.tile_status k l = b.tile_status k l ∨
    (b.tile_status k l = TILE_CLOSED ∧ r.tile_status k l = TILE_OPENED ∧
      k < b.n_rows ∧ l < b.n_cols ∧ b.is_mine k l = false)
  ttop : r.tiles_to_open - ((unopenedSafe r).card : Int)
    = b.tiles_to_open - ((unopenedSafe b).card : Int)
  zero : ZeroClosure b q → ZeroClosure r []

/-- Everything `_open_tiles b i j` guarantees when called on an in-grid,
closed, unmined tile of a consistent running board. -/
structure OpenTilesOut (b : Board) (i j : Nat) (r : Board) : Prop where
  rows : r.n_rows = b.n_rows
  cols : r.n_cols = b.n_cols
  mines : r.n_mines = b.n_mines
  mine_fun : r.is_mine = b.is_mine
  counts : r.mine_count = b.mine_count
  losing : r.losing_indices = b.losing_indices
  seed : r.tile_status i j = TILE_OPENED
  safeMono : ∀ k l, b.is_mine k l = false →
    r.tile_status k l = b.tile_status k l ∨
      (b.tile_status k l = TILE_CLOSED ∧ r.tile_status k l = TILE_OPENED)
  dec : r.tiles_to_open < b.tiles_to_open
  count : r.tiles_to_open - ((unopenedSafe r).card : Int)
    = b.tiles_to_open - ((unopenedSafe b).card : Int)
  zero : ZeroClosure b [] → ZeroClosure r []
  outcome : (r.game_status = "running" ∧ RunningInv r ∧ 0 < r.tiles_to_open ∧
      r.n_mines_left = b.n_mines_left ∧
      (∀ k l, b.is_mine k l = true → r.tile_status k l = b.tile_status k l))
    ∨ (r.game_status = "victory" ∧ r.tiles_to_open = 0 ∧ r.n_mines_left = 0 ∧
      (∀ k l, b.is_mine k l = true → r.tile_status k l = TILE_CHECKED) ∧
      (∀ k l, k < b.n_rows → l < b.n_cols → r.tile_status k l ≠ TILE_CLOSED))

/-- Everything the chord neighbor loop guarantees, relative to its entry
state `b` (a consistent running board) and its in-grid cell list `L`:
statics untouched, safe statuses only go closed-to-opened, every closed
safe listed cell ends opened unless a detonation stops the loop first,
and the loop ends running (no closed mine was reached), in victory (a
flood fill emptied `tiles_to_open`; all mines flagged), or in game over
(detonated on a listed cell that was a closed mine, recorded in
`losing_indices` and opened, every other mine untouched). -/
structure ChordOut (b : Board) (L : List (Nat × Nat)) (r : Board) : Prop where
  rows : r.n_rows = b.n_rows
  cols : r.n_cols = b.n_cols
  mines : r.n_mines = b.n_mines
  mine_fun : r.is_mine = b.is_mine
  counts : r.mine_count = b.mine_count
  safeMono : ∀ k l, b.is_mine k l = false →
    r.tile_status k l = b.tile_status k l ∨
      (b.tile_status k l = TILE_CLOSED ∧ r.tile_status k l = TILE_OPENED)
  opened : ∀ p ∈ L, b.tile_status p.1 p.2 = TILE_CLOSED →
    b.is_mine p.1 p.2 = false → r.game_status ≠ "game_over" →
    r.tile_status p.1 p.2 = TILE_OPENED
  outcome :
    (r.game_status = "running" ∧ RunningInv r ∧
      r.losing_indices = b.losing_indices ∧ r.n_mines_left = b.n_mines_left ∧
      ∀ p ∈ L, ¬(b.tile_status p.1 p.2 = TILE_CLOSED ∧ b.is_mine p.1 p.2 = true))
    ∨ (r.game_status = "victory" ∧ r.n_mines_left = 0 ∧
      (∀ k l, k < b.n_rows → l < b.n_cols → r.tile_status k l ≠ TILE_CLOSED) ∧
      (∀ k l, b.is_mine k l = true → r.tile_status k l = TILE_CHECKED))
    ∨ (r.game_status = "game_over" ∧ ∃ p, p ∈ L ∧ b.is_mine p.1 p.2 = true ∧
      b.tile_status p.1 p.2 = TILE_CLOSED ∧ r.losing_indices = some p ∧
      r.tile_status p.1 p.2 = TILE_OPENED ∧ r.n_mines_left = b.n_mines_left ∧
      ∀ k l, ¬(k = p.1 ∧ l = p.2) → b.is_mine k l = true →
        r.tile_status k l = b.tile_status k l)

/-- The opened-mine invariant of the claim: an in-grid mined cell is
opened only in a `game_over` board, and then it is the recorded losing
cell. (In `victory` boards all mines are flagged, so no opened mine
exists there either.) -/
def OpenedMineOK (b : Board) : Prop :=
  ∀ i < b.n_rows, ∀ j < b.n_cols, b.is_mine i j = true →
    b.tile_status i j = TILE_OPENED →
      b.game_status = "game_over" ∧ b.losing_indices = some (i, j)

/-- A reachable 2×3 running board: one mine at (1,2), cell (0,1) opened
(showing 1), the wrong neighbor (1,0) flagged, three closed safe cells
left, so `tiles_to_open = 4` (the flagged safe cell still counts —
`_check_tile` never touches the counter). A chord on (0,1) flood-fills
(0,0), (1,1) and (0,2), leaving `tiles_to_open = 1`, then detonates the
closed mine (1,2) into game over. -/
def chordBoard : Board :=
  { n_rows := 2
    n_cols := 3
    n_mines := 1
    n_mines_left := 0
    is_mine := fun i j => decide (i = 1 ∧ j = 2)
    mine_count := fun i j =>
      if i = 0 ∧ j = 1 then 1 else if i = 0 ∧ j = 2 then 1
      else if i = 1 ∧ j = 1 then 1 else 0
    tile_status := fun i j =>
      if i = 0 ∧ j = 1 then TILE_OPENED
      else if i = 1 ∧ j = 0 then TILE_CHECKED else TILE_CLOSED
    losing_indices := none
    tiles_to_open := 4
    game_status := "running" }

/-- A 2×2 running board with one mine at (1,1) and every tile closed. -/
def runningBoard : Board :=
  { n_rows := 2
    n_cols := 2
    n_mines := 1
    n_mines_left := 1
    is_mine := fun i j => decide (i = 1 ∧ j = 1)
    mine_count := fun i j => if i = 1 ∧ j = 1 then 0 else 1
    tile_status := fun _ _ => TILE_CLOSED
    losing_indices := none
    tiles_to_open := 3
    game_status := "running" }

/-! ## Basic lemmas: array update and neighbor enumeration -/

theorem update2_same {α : Type} (f : Nat → Nat → α) (i j : Nat) (v : α) :
    update2 f i j v i j = v := by
  simp [update2]

theorem update2_ne {α : Type} (f : Nat → Nat → α) (i j : Nat) (v : α)
    {k l : Nat} (h : ¬(k = i ∧ l = j)) : update2 f i j v k l = f k l := by
  simp [update2, h]

theorem mem_get_neighbors {n_rows n_cols i j k l : Nat}
    (hi : i < n_rows) (hj : j < n_cols) :
    (k, l) ∈ get_neighbors n_rows n_cols i j ↔
      (k < n_rows ∧ l < n_cols ∧ ¬(k = i ∧ l = j) ∧
        k ≤ i + 1 ∧ i ≤ k + 1 ∧ l ≤ j + 1 ∧ j ≤ l + 1) := by
  simp only [get_neighbors, List.mem_append, List.mem_singleton, List.mem_nil_iff]
  split_ifs <;> simp_all [Prod.ext_iff] <;> omega

theorem get_neighbors_nodup (n_rows n_cols i j : Nat) :
    (get_neighbors n_rows n_cols i j).Nodup := by
  simp only [get_neighbors]
  split_ifs <;>
    simp_all [List.nodup_append, List.nodup_cons, List.Disjoint, Prod.ext_iff] <;>
    omega

/-! ## The inner neighbor loop of the flood fill -/

theorem open_fold_spec (L : List (Nat × Nat)) :
    ∀ (b : Board) (acc : List (Nat × Nat)), L.Nodup →
      FoldSpec b acc L (open_fold b acc L) := by
  induction L with
  | nil =>
    intro b acc _
    refine ⟨rfl, rfl, rfl, rfl, rfl, rfl, rfl, rfl, ?_, ?_, ?_⟩
    · intro k l; simp [open_fold]
    · simp [open_fold]
    · simp [open_fold]
  | cons p L ih =>
    intro b acc hnd
    have hp : p ∉ L := (List.nodup_cons.mp hnd).1
    have hnd' : L.Nodup := (List.nodup_cons.mp hnd).2
    by_cases hc : b.tile_status p.1 p.2 = TILE_CLOSED
    · have hfold : open_fold b acc (p :: L)
          = open_fold (open_one b p.1 p.2) (acc ++ [p]) L := by
        simp [open_fold, List.foldl_cons, hc]
      have hspec := ih (open_one b p.1 p.2) (acc ++ [p]) hnd'
      rw [hfold]
      have hstat1 : ∀ k l, (open_one b p.1 p.2).tile_status k l =
          if (k, l) = p then TILE_OPENED else b.tile_status k l := by
        intro k l
        by_cases hkl : (k, l) = p
        · subst hkl
          simp [open_one, update2]
        · rw [if_neg hkl]
          have : ¬(k = p.1 ∧ l = p.2) := by
            intro h
            exact hkl (Prod.ext h.1 h.2)
          simp [open_one, update2_ne _ _ _ _ this]
      have hfilter : L.filter
            (fun q => decide ((open_one b p.1 p.2).tile_status q.1 q.2 = TILE_CLOSED))
          = L.filter (fun q => decide (b.tile_status q.1 q.2 = TILE_CLOSED)) := by
        apply List.filter_congr
        intro q hq
        have hqp : q ≠ p := fun h => hp (h ▸ hq)
        rw [hstat1 q.1 q.2, if_neg (by simpa using hqp)]
      refine ⟨hspec.rows, hspec.cols, hspec.mines, hspec.mines_left,
        hspec.mine_fun, hspec.counts, hspec.status_game, hspec.losing,
        ?_, ?_, ?_⟩
      · intro k l
        rw [hspec.status k l, hstat1 k l]
        by_cases hkl : (k, l) = p
        · subst hkl
          have hmem : ¬((k, l) ∈ L ∧ TILE_OPENED = TILE_CLOSED) := by
            simp [TILE_OPENED, TILE_CLOSED]
          rw [if_pos rfl, if_neg hmem, if_pos ⟨List.mem_cons_self _ _, hc⟩]
        · rw [if_neg hkl]
          by_cases hmem : (k, l) ∈ L ∧ b.tile_status k l = TILE_CLOSED
          · rw [if_pos hmem, if_pos ⟨List.mem_cons_of_mem _ hmem.1, hmem.2⟩]
          · rw [if_neg hmem, if_neg]
            intro h
            rcases List.mem_cons.mp h.1 with h1 | h1
            · exact hkl h1
            · exact hmem ⟨h1, h.2⟩
      · rw [hspec.queue, hfilter]
        simp [List.filter_cons, hc]
      · rw [hspec.ttop, hfilter]
        simp only [open_one, List.filter_cons, hc]
        simp
        ring
    · have hfold : open_fold b acc (p :: L) = open_fold b acc L := by
        simp [open_fold, List.foldl_cons, hc]
      have hspec := ih b acc hnd'
      rw [hfold]
      refine ⟨hspec.rows, hspec.cols, hspec.mines, hspec.mines_left,
        hspec.mine_fun, hspec.counts, hspec.status_game, hspec.losing,
        ?_, ?_, ?_⟩
      · intro k l
        rw [hspec.status k l]
        by_cases hmem : (k, l) ∈ L ∧ b.tile_status k l = TILE_CLOSED
        · rw [if_pos hmem, if_pos ⟨List.mem_cons_of_mem _ hmem.1, hmem.2⟩]
        · rw [if_neg hmem, if_neg]
          intro h
          rcases List.mem_cons.mp h.1 with h1 | h1
          · exact hc (h1 ▸ h.2)
          · exact hmem ⟨h1, h.2⟩
      · rw [hspec.queue]
        simp [List.filter_cons, hc]
      · rw [hspec.ttop]
        simp [List.filter_cons, hc]

/-! ## Counting closed cells -/

theorem mem_gridF {b : Board} {p : Nat × Nat} :
    p ∈ gridF b ↔ p.1 < b.n_rows ∧ p.2 < b.n_cols := by
  simp [gridF, Finset.mem_product]

theorem mem_closedAll {b : Board} {p : Nat × Nat} :
    p ∈ closedAll b ↔
      (p.1 < b.n_rows ∧ p.2 < b.n_cols) ∧ b.tile_status p.1 p.2 = TILE_CLOSED := by
  simp [closedAll, Finset.mem_filter, mem_gridF]

theorem mem_unopenedSafe {b : Board} {p : Nat × Nat} :
    p ∈ unopenedSafe b ↔ (p.1 < b.n_rows ∧ p.2 < b.n_cols) ∧
      b.is_mine p.1 p.2 = false ∧ b.tile_status p.1 p.2 ≠ TILE_OPENED := by
  simp [unopenedSafe, Finset.mem_filter, mem_gridF]

theorem closedAll_card_le (b : Board) :
    (closedAll b).card ≤ b.n_rows * b.n_cols := by
  calc (closedAll b).card ≤ (gridF b).card :=
        Finset.card_le_card (Finset.filter_subset _ _)
    _ = b.n_rows * b.n_cols := by
        simp [gridF, Finset.card_product]

theorem closedAll_of_formula {b r : Board} (hrows : r.n_rows = b.n_rows)
    (hcols : r.n_cols = b.n_cols) (N : List (Nat × Nat))
    (hstat : ∀ k l, r.tile_status k l =
      if (k, l) ∈ N ∧ b.tile_status k l = TILE_CLOSED then TILE_OPENED
      else b.tile_status k l) :
    closedAll r = closedAll b \
      (N.filter fun p => decide (b.tile_status p.1 p.2 = TILE_CLOSED)).toFinset := by
  ext p
  rw [Finset.mem_sdiff, mem_closedAll, mem_closedAll, hrows, hcols,
    List.mem_toFinset, List.mem_filter, hstat p.1 p.2]
  by_cases hmem : (p.1, p.2) ∈ N ∧ b.tile_status p.1 p.2 = TILE_CLOSED
  · rw [if_pos hmem]
    simp [TILE_OPENED, TILE_CLOSED, hmem.1, hmem.2]
  · rw [if_neg hmem]
    constructor
    · rintro ⟨hg, hcl⟩
      exact ⟨⟨hg, hcl⟩, fun hc => hmem ⟨by simpa using hc.1, hcl⟩⟩
    · rintro ⟨⟨hg, hcl⟩, _⟩
      exact ⟨hg, hcl⟩

theorem unopenedSafe_of_formula {b r : Board} (hrows : r.n_rows = b.n_rows)
    (hcols : r.n_cols = b.n_cols) (hmine : r.is_mine = b.is_mine)
    (N : List (Nat × Nat))
    (hstat : ∀ k l, r.tile_status k l =
      if (k, l) ∈ N ∧ b.tile_status k l = TILE_CLOSED then TILE_OPENED
      else b.tile_status k l) :
    unopenedSafe r = unopenedSafe b \
      (N.filter fun p => decide (b.tile_status p.1 p.2 = TILE_CLOSED)).toFinset := by
  ext p
  rw [Finset.mem_sdiff, mem_unopenedSafe, mem_unopenedSafe, hrows, hcols, hmine,
    List.mem_toFinset, List.mem_filter, hstat p.1 p.2]
  by_cases hmem : (p.1, p.2) ∈ N ∧ b.tile_status p.1 p.2 = TILE_CLOSED
  · rw [if_pos hmem]
    simp [TILE_OPENED, TILE_CLOSED, hmem.1, hmem.2]
  · rw [if_neg hmem]
    constructor
    · rintro ⟨hg, hm, hcl⟩
      exact ⟨⟨hg, hm, hcl⟩, fun hc => hmem ⟨by simpa using hc.1, by simpa using hc.2⟩⟩
    · rintro ⟨⟨hg, hm, hcl⟩, _⟩
      exact ⟨hg, hm, hcl⟩

/-! ## Facts about neighbors of a zero-count cell -/

theorem get_neighbors_inGrid {n_rows n_cols i j : Nat}
    (hi : i < n_rows) (hj : j < n_cols) :
    ∀ p ∈ get_neighbors n_rows n_cols i j, p.1 < n_rows ∧ p.2 < n_cols := by
  intro p hp
  have h := (mem_get_neighbors (k := p.1) (l := p.2) hi hj).mp (by simpa using hp)
  exact ⟨h.1, h.2.1⟩

theorem neighbors_safe_of_zero {b : Board} {i j : Nat}
    (hcounts : countsOK b) (hi : i < b.n_rows) (hj : j < b.n_cols)
    (hzero : b.mine_count i j = 0) :
    ∀ p ∈ get_neighbors b.n_rows b.n_cols i j, b.is_mine p.1 p.2 = false := by
  intro p hp
  have h2 : ((get_neighbors b.n_rows b.n_cols i j).filter
      fun p => b.is_mine p.1 p.2).length = 0 := by
    have h := hcounts i hi j hj
    rw [hzero] at h
    simpa [minedNeighborCount] using h.symm
  have hnil := List.length_eq_zero.mp h2
  by_contra hm
  have hpmem : p ∈ (get_neighbors b.n_rows b.n_cols i j).filter
      fun p => b.is_mine p.1 p.2 := by
    apply List.mem_filter.mpr
    exact ⟨hp, by simpa using hm⟩
  rw [hnil] at hpmem
  exact List.not_mem_nil _ hpmem

/-! ## The wave-algorithm loop -/

theorem countsOK_congr {b r : Board} (hrows : r.n_rows = b.n_rows)
    (hcols : r.n_cols = b.n_cols) (hmine : r.is_mine = b.is_mine)
    (hmc : r.mine_count = b.mine_count) (h : countsOK b) : countsOK r := by
  intro i hi j hj
  rw [hrows] at hi
  rw [hcols] at hj
  have hb := h i hi j hj
  unfold minedNeighborCount at hb ⊢
  rw [hrows, hcols, hmine, hmc]
  exact hb

theorem open_tiles_loop_spec :
    ∀ (fuel : Nat) (b : Board) (q : List (Nat × Nat)),
      2 * (closedAll b).card + q.length ≤ fuel →
      QueueOK b q → countsOK b →
      LoopSpec b q (open_tiles_loop fuel b q) := by
  intro fuel
  induction fuel with
  | zero =>
    intro b q hfuel hq hcounts
    refine ⟨rfl, rfl, rfl, rfl, rfl, rfl, rfl, rfl,
      fun k l => Or.inl rfl, rfl, ?_⟩
    intro hz
    have hq0 : q = [] := List.eq_nil_of_length_eq_zero (by omega)
    rwa [hq0] at hz
  | succ fuel ih =>
    intro b q hfuel hq hcounts
    cases q with
    | nil =>
      exact ⟨rfl, rfl, rfl, rfl, rfl, rfl, rfl, rfl,
        fun k l => Or.inl rfl, rfl, fun hz => hz⟩
    | cons hd rest =>
      obtain ⟨i, j⟩ := hd
      obtain ⟨⟨hi, hj⟩, hsafe, hopen⟩ := hq (i, j) (List.mem_cons_self _ _)
      by_cases hmc : 0 < b.mine_count i j
      · have hloop : open_tiles_loop (fuel + 1) b ((i, j) :: rest)
            = open_tiles_loop fuel b rest := by
          simp only [open_tiles_loop, if_pos hmc]
        rw [hloop]
        have hrest : QueueOK b rest := fun p hp => hq p (List.mem_cons_of_mem _ hp)
        have hspec := ih b rest (by simp at hfuel ⊢; omega) hrest hcounts
        refine ⟨hspec.rows, hspec.cols, hspec.mines, hspec.mines_left,
          hspec.mine_fun, hspec.counts, hspec.status_game, hspec.losing,
          hspec.mono, hspec.ttop, ?_⟩
        intro hz
        apply hspec.zero
        intro k hk l hl hop hmc0
        rcases hz k hk l hl hop hmc0 with hmem | hcl
        · rcases List.mem_cons.mp hmem with heq | hmem'
          · exfalso
            have : (k, l) = (i, j) := heq
            rw [Prod.mk.injEq] at this
            rw [this.1, this.2] at hmc0
            omega
          · exact Or.inl hmem'
        · exact Or.inr hcl
      · have hmc0 : b.mine_count i j = 0 := by omega
        have hloop : open_tiles_loop (fuel + 1) b ((i, j) :: rest)
            = open_tiles_loop fuel (open_tiles_step b i j).1
                (rest ++ (open_tiles_step b i j).2) := by
          simp only [open_tiles_loop, if_neg hmc]
        rw [hloop]
        set N := get_neighbors b.n_rows b.n_cols i j with hN
        set s := open_tiles_step b i j with hs
        have hfs : FoldSpec b [] N s :=
          open_fold_spec N b [] (get_neighbors_nodup _ _ _ _)
        set newly := N.filter
          (fun p => decide (b.tile_status p.1 p.2 = TILE_CLOSED)) with hnewly
        have hqueue : s.2 = newly := by
          rw [hfs.queue]
          simp
        have hNgrid : ∀ p ∈ N, p.1 < b.n_rows ∧ p.2 < b.n_cols :=
          get_neighbors_inGrid hi hj
        have hNsafe : ∀ p ∈ N, b.is_mine p.1 p.2 = false :=
          neighbors_safe_of_zero hcounts hi hj hmc0
        have hnodupnew : newly.Nodup :=
          List.Nodup.filter _ (get_neighbors_nodup _ _ _ _)
        have hcardnew : newly.toFinset.card = newly.length :=
          List.toFinset_card_of_nodup hnodupnew
        have hcA : closedAll s.1 = closedAll b \ newly.toFinset :=
          closedAll_of_formula hfs.rows hfs.cols N hfs.status
        have hcS : unopenedSafe s.1 = unopenedSafe b \ newly.toFinset :=
          unopenedSafe_of_formula hfs.rows hfs.cols hfs.mine_fun N hfs.status
        have hsubA : newly.toFinset ⊆ closedAll b := by
          intro p hp
          rw [List.mem_toFinset, hnewly, List.mem_filter] at hp
          exact mem_closedAll.mpr ⟨hNgrid p hp.1, by simpa using hp.2⟩
        have hsubS : newly.toFinset ⊆ unopenedSafe b := by
          intro p hp
          rw [List.mem_toFinset, hnewly, List.mem_filter] at hp
          refine mem_unopenedSafe.mpr ⟨hNgrid p hp.1, hNsafe p hp.1, ?_⟩
          have hc : b.tile_status p.1 p.2 = TILE_CLOSED := by simpa using hp.2
          simp [hc, TILE_CLOSED, TILE_OPENED]
        have hlenA : newly.length ≤ (closedAll b).card :=
          hcardnew ▸ Finset.card_le_card hsubA
        have hlenS : newly.length ≤ (unopenedSafe b).card :=
          hcardnew ▸ Finset.card_le_card hsubS
        have hcardA : (closedAll s.1).card = (closedAll b).card - newly.length := by
          rw [hcA, Finset.card_sdiff hsubA, hcardnew]
        have hcardS : (unopenedSafe s.1).card = (unopenedSafe b).card - newly.length := by
          rw [hcS, Finset.card_sdiff hsubS, hcardnew]
        have hqok : QueueOK s.1 (rest ++ s.2) := by
          intro p hp
          rcases List.mem_append.mp hp with hp' | hp'
          · obtain ⟨⟨hpi, hpj⟩, hpsafe, hpopen⟩ :=
              hq p (List.mem_cons_of_mem _ hp')
            refine ⟨⟨by rw [hfs.rows]; exact hpi, by rw [hfs.cols]; exact hpj⟩,
              by rw [hfs.mine_fun]; exact hpsafe, ?_⟩
            rw [hfs.status p.1 p.2, if_neg, hpopen]
            intro hcond
            rw [hpopen] at hcond
            exact absurd hcond.2 (by simp [TILE_OPENED, TILE_CLOSED])
          · rw [hqueue, hnewly, List.mem_filter] at hp'
            refine ⟨⟨by rw [hfs.rows]; exact (hNgrid p hp'.1).1,
              by rw [hfs.cols]; exact (hNgrid p hp'.1).2⟩,
              by rw [hfs.mine_fun]; exact hNsafe p hp'.1, ?_⟩
            rw [hfs.status p.1 p.2, if_pos ⟨hp'.1, by simpa using hp'.2⟩]
        have hcounts' : countsOK s.1 :=
          countsOK_congr hfs.rows hfs.cols hfs.mine_fun hfs.counts hcounts
        have hbound : 2 * (closedAll s.1).card + (rest ++ s.2).length ≤ fuel := by
          rw [hcardA, List.length_append, hqueue]
          simp only [List.length_cons] at hfuel
          omega
        have hspec := ih s.1 (rest ++ s.2) hbound hqok hcounts'
        refine ⟨hspec.rows.trans hfs.rows, hspec.cols.trans hfs.cols,
          hspec.mines.trans hfs.mines, hspec.mines_left.trans hfs.mines_left,
          hspec.mine_fun.trans hfs.mine_fun, hspec.counts.trans hfs.counts,
          hspec.status_game.trans hfs.status_game,
          hspec.losing.trans hfs.losing, ?_, ?_, ?_⟩
        · intro k l
          rcases hspec.mono k l with h1 | h1
          · rw [h1, hfs.status k l]
            by_cases hcond : (k, l) ∈ N ∧ b.tile_status k l = TILE_CLOSED
            · rw [if_pos hcond]
              exact Or.inr ⟨hcond.2, rfl, (hNgrid _ hcond.1).1,
                (hNgrid _ hcond.1).2, hNsafe _ hcond.1⟩
            · rw [if_neg hcond]
              exact Or.inl rfl
          · obtain ⟨hclosed1, hopen1, hk1, hl1, hsafe1⟩ := h1
            have hbclosed : b.tile_status k l = TILE_CLOSED := by
              rw [hfs.status k l] at hclosed1
              by_cases hcond : (k, l) ∈ N ∧ b.tile_status k l = TILE_CLOSED
              · rw [if_pos hcond] at hclosed1
                exact absurd hclosed1 (by simp [TILE_OPENED, TILE_CLOSED])
              · rwa [if_neg hcond] at hclosed1
            exact Or.inr ⟨hbclosed, hopen1,
              by rw [hfs.rows] at hk1; exact hk1,
              by rw [hfs.cols] at hl1; exact hl1,
              by rw [hfs.mine_fun] at hsafe1; exact hsafe1⟩
        · have hstep : s.1.tiles_to_open - ((unopenedSafe s.1).card : Int)
              = b.tiles_to_open - ((unopenedSafe b).card : Int) := by
            rw [hfs.ttop, hcardS, Nat.cast_sub hlenS]
            ring
          rw [hspec.ttop, hstep]
        · intro hz
          apply hspec.zero
          intro k hk l hl hop hmcz
          rw [hfs.rows] at hk
          rw [hfs.cols] at hl
          rw [hfs.counts] at hmcz
          rw [hfs.status k l] at hop
          by_cases hcond : (k, l) ∈ N ∧ b.tile_status k l = TILE_CLOSED
          · left
            apply List.mem_append.mpr
            right
            rw [hqueue, hnewly]
            exact List.mem_filter.mpr ⟨hcond.1, by simpa using hcond.2⟩
          · rw [if_neg hcond] at hop
            rcases hz k hk l hl hop hmcz with hmem | hcl
            · rcases List.mem_cons.mp hmem with heq | hmem'
              · right
                rw [Prod.mk.injEq] at heq
                intro p hp
                rw [hfs.rows, hfs.cols, heq.1, heq.2] at hp
                rw [hfs.status p.1 p.2]
                by_cases hpc : (p.1, p.2) ∈ N ∧ b.tile_status p.1 p.2 = TILE_CLOSED
                · rw [if_pos hpc]
                  simp [TILE_OPENED, TILE_CLOSED]
                · rw [if_neg hpc]
                  intro hcl'
                  exact hpc ⟨by simpa using hp, hcl'⟩
              · exact Or.inl (List.mem_append.mpr (Or.inl hmem'))
            · right
              intro p hp
              rw [hfs.rows, hfs.cols] at hp
              have hclp := hcl p hp
              rw [hfs.status p.1 p.2]
              by_cases hpc : (p.1, p.2) ∈ N ∧ b.tile_status p.1 p.2 = TILE_CLOSED
              · rw [if_pos hpc]
                simp [TILE_OPENED, TILE_CLOSED]
              · rw [if_neg hpc]
                exact hclp

/-! ## Termination of the wave loop: the fuel budget is irrelevant once
it covers `2 * #closed + queue length` -/

theorem unopenedSafe_subset_of_mono {b r : Board} (hrows : r.n_rows = b.n_rows)
    (hcols : r.n_cols = b.n_cols) (hmine : r.is_mine = b.is_mine)
    (hmono : ∀ k l, r.tile_status k l = b.tile_status k l ∨
      (b.tile_status k l = TILE_CLOSED ∧ r.tile_status k l = TILE_OPENED ∧
        k < b.n_rows ∧ l < b.n_cols ∧ b.is_mine k l = false)) :
    unopenedSafe r ⊆ unopenedSafe b := by
  intro p hp
  rw [mem_unopenedSafe, hrows, hcols, hmine] at hp
  rcases hmono p.1 p.2 with h | h
  · exact mem_unopenedSafe.mpr ⟨hp.1, hp.2.1, h ▸ hp.2.2⟩
  · exact absurd h.2.1 hp.2.2

/-- Opening the seed tile preserves the zero-region closure property,
with the seed itself going onto the work queue. -/
theorem zeroClosure_seed {b : Board} {i j : Nat} (hzc : ZeroClosure b []) :
    ZeroClosure (open_one b i j) [(i, j)] := by
  intro k hk l hl hop hmc
  by_cases hkl : k = i ∧ l = j
  · left
    rw [hkl.1, hkl.2]
    exact List.mem_singleton.mpr rfl
  · right
    have hop' : b.tile_status k l = TILE_OPENED := by
      have h := update2_ne b.tile_status i j TILE_OPENED hkl
      rw [← h]
      exact hop
    have hzb := hzc k hk l hl hop' hmc
    rcases hzb with h | h
    · exact absurd h (List.not_mem_nil _)
    · intro p hp
      have hb := h p hp
      show update2 b.tile_status i j TILE_OPENED p.1 p.2 ≠ TILE_CLOSED
      by_cases hpij : p.1 = i ∧ p.2 = j
      · rw [hpij.1, hpij.2, update2_same]
        simp [TILE_OPENED, TILE_CLOSED]
      · rw [update2_ne _ _ _ _ hpij]
        exact hb

/-- Flagging every mine for display at victory does not change which
safe cells are still unopened. -/
theorem unopenedSafe_victory_flag (b2 : Board) :
    unopenedSafe { b2 with
      game_status := "victory"
      n_mines_left := 0
      tile_status := fun k l =>
        if b2.is_mine k l then TILE_CHECKED else b2.tile_status k l }
      = unopenedSafe b2 := by
  ext p
  rw [mem_unopenedSafe, mem_unopenedSafe]
  constructor
  · rintro ⟨hg, hm, hcl⟩
    have hm' : b2.is_mine p.1 p.2 = false := hm
    have hcl' : (if b2.is_mine p.1 p.2 then TILE_CHECKED
        else b2.tile_status p.1 p.2) ≠ TILE_OPENED := hcl
    rw [hm'] at hcl'
    simp only [Bool.false_eq_true, if_false] at hcl'
    exact ⟨hg, hm', hcl'⟩
  · rintro ⟨hg, hm, hcl⟩
    refine ⟨hg, hm, ?_⟩
    show (if b2.is_mine p.1 p.2 then TILE_CHECKED
        else b2.tile_status p.1 p.2) ≠ TILE_OPENED
    rw [hm]
    simpa using hcl

theorem open_tiles_spec {b : Board} {i j : Nat} (hinv : RunningInv b)
    (hi : i < b.n_rows) (hj : j < b.n_cols)
    (hclosed : b.tile_status i j = TILE_CLOSED)
    (hsafe : b.is_mine i j = false) :
    OpenTilesOut b i j (open_tiles b i j) := by
  obtain ⟨hrun, hcounts, httop, hnomine⟩ := hinv
  set b1 := open_one b i j with hb1
  have hstat1 : ∀ k l, b1.tile_status k l =
      if (k, l) ∈ [(i, j)] ∧ b.tile_status k l = TILE_CLOSED then TILE_OPENED
      else b.tile_status k l := by
    intro k l
    by_cases hkl : (k, l) = (i, j)
    · rw [Prod.mk.injEq] at hkl
      rw [hkl.1, hkl.2]
      simp [hb1, open_one, update2, hclosed]
    · have hkl' : ¬(k = i ∧ l = j) := by
        intro h
        exact hkl (by rw [Prod.mk.injEq]; exact h)
      rw [if_neg (by
        intro hcond
        exact hkl' (by simpa [Prod.mk.injEq] using List.mem_singleton.mp hcond.1))]
      simp [hb1, open_one, update2_ne _ _ _ _ hkl']
  have hmem_cs : (i, j) ∈ unopenedSafe b := mem_unopenedSafe.mpr
    ⟨⟨hi, hj⟩, hsafe, by simp [hclosed, TILE_CLOSED, TILE_OPENED]⟩
  have hcspos : 0 < (unopenedSafe b).card := Finset.card_pos.mpr ⟨_, hmem_cs⟩
  have hfilter1 : ([(i, j)].filter
      fun p => decide (b.tile_status p.1 p.2 = TILE_CLOSED)) = [(i, j)] := by
    simp [List.filter_cons, hclosed]
  have hcS1 : unopenedSafe b1 = unopenedSafe b \ [(i, j)].toFinset := by
    have := unopenedSafe_of_formula (b := b) (r := b1) rfl rfl rfl [(i, j)] hstat1
    rwa [hfilter1] at this
  have hcA1 : closedAll b1 = closedAll b \ [(i, j)].toFinset := by
    have := closedAll_of_formula (b := b) (r := b1) rfl rfl [(i, j)] hstat1
    rwa [hfilter1] at this
  have hsub1 : [(i, j)].toFinset ⊆ unopenedSafe b := by
    intro p hp
    rw [List.mem_toFinset, List.mem_singleton] at hp
    rw [hp]
    exact hmem_cs
  have hsub1A : [(i, j)].toFinset ⊆ closedAll b := by
    intro p hp
    rw [List.mem_toFinset, List.mem_singleton] at hp
    rw [hp]
    exact mem_closedAll.mpr ⟨⟨hi, hj⟩, hclosed⟩
  have hcard1 : (unopenedSafe b1).card = (unopenedSafe b).card - 1 := by
    rw [hcS1, Finset.card_sdiff hsub1]
    simp
  have hqok1 : QueueOK b1 [(i, j)] := by
    intro p hp
    rw [List.mem_singleton] at hp
    rw [hp]
    refine ⟨⟨hi, hj⟩, hsafe, ?_⟩
    simp [hb1, open_one, update2]
  have hcounts1 : countsOK b1 := countsOK_congr rfl rfl rfl rfl hcounts
  have hbound : 2 * (closedAll b1).card + [(i, j)].length
      ≤ 2 * b.n_rows * b.n_cols + 1 := by
    have hle : (closedAll b1).card ≤ b.n_rows * b.n_cols := closedAll_card_le b1
    simp only [List.length_singleton]
    rw [mul_assoc]
    omega
  have hloop := open_tiles_loop_spec (2 * b.n_rows * b.n_cols + 1) b1 [(i, j)]
    hbound hqok1 hcounts1
  set b2 := open_tiles_loop (2 * b.n_rows * b.n_cols + 1) b1 [(i, j)] with hb2
  have hmf : b2.is_mine = b.is_mine := hloop.mine_fun
  have hrw : b2.n_rows = b.n_rows := hloop.rows
  have hcw : b2.n_cols = b.n_cols := hloop.cols
  have hnm : b2.n_mines = b.n_mines := hloop.mines
  have hmcf : b2.mine_count = b.mine_count := hloop.counts
  have hli : b2.losing_indices = b.losing_indices := hloop.losing
  have hgs : b2.game_status = b.game_status := hloop.status_game
  have hml : b2.n_mines_left = b.n_mines_left := hloop.mines_left
  have hot : open_tiles b i j = if b2.tiles_to_open = 0 then
      { b2 with
        game_status := "victory"
        n_mines_left := 0
        tile_status := fun k l =>
          if b2.is_mine k l then TILE_CHECKED else b2.tile_status k l }
    else b2 := rfl
  have httop1 : b1.tiles_to_open = b.tiles_to_open - 1 := rfl
  have httop2 : b2.tiles_to_open = ((unopenedSafe b2).card : Int) := by
    have h := hloop.ttop
    rw [httop1, hcard1, Nat.cast_sub (by omega), httop] at h
    omega
  have hseed2 : b2.tile_status i j = TILE_OPENED := by
    rcases hloop.mono i j with h | h
    · rw [h, hstat1 i j, if_pos ⟨List.mem_singleton.mpr rfl, hclosed⟩]
    · exact h.2.1
  have hsafeMono2 : ∀ k l, b.is_mine k l = false →
      b2.tile_status k l = b.tile_status k l ∨
        (b.tile_status k l = TILE_CLOSED ∧ b2.tile_status k l = TILE_OPENED) := by
    intro k l hm
    rcases hloop.mono k l with h | h
    · rw [h, hstat1 k l]
      by_cases hcond : (k, l) ∈ [(i, j)] ∧ b.tile_status k l = TILE_CLOSED
      · rw [if_pos hcond]
        exact Or.inr ⟨hcond.2, rfl⟩
      · rw [if_neg hcond]
        exact Or.inl rfl
    · obtain ⟨hcl1, hop2, _, _, _⟩ := h
      rw [hstat1 k l] at hcl1
      by_cases hcond : (k, l) ∈ [(i, j)] ∧ b.tile_status k l = TILE_CLOSED
      · rw [if_pos hcond] at hcl1
        exact absurd hcl1 (by simp [TILE_OPENED, TILE_CLOSED])
      · rw [if_neg hcond] at hcl1
        exact Or.inr ⟨hcl1, hop2⟩
  have hmine2 : ∀ k l, b.is_mine k l = true →
      b2.tile_status k l = b.tile_status k l := by
    intro k l hm
    rcases hloop.mono k l with h | h
    · rw [h, hstat1 k l, if_neg]
      intro hcond
      have heq : (k, l) = (i, j) := List.mem_singleton.mp hcond.1
      rw [Prod.mk.injEq] at heq
      rw [heq.1, heq.2] at hm
      rw [hm] at hsafe
      exact absurd hsafe (by simp)
    · exfalso
      have hb1m : b.is_mine k l = false := h.2.2.2.2
      rw [hm] at hb1m
      exact absurd hb1m (by simp)
  have hmono_b : ∀ k l, b2.tile_status k l = b.tile_status k l ∨
      (b.tile_status k l = TILE_CLOSED ∧ b2.tile_status k l = TILE_OPENED ∧
        k < b.n_rows ∧ l < b.n_cols ∧ b.is_mine k l = false) := by
    intro k l
    by_cases hm : b.is_mine k l = true
    · exact Or.inl (hmine2 k l hm)
    · have hm' : b.is_mine k l = false := by
        cases hbm : b.is_mine k l
        · rfl
        · exact absurd hbm hm
      rcases hloop.mono k l with h2 | h2
      · rw [h2, hstat1 k l]
        by_cases hcond : (k, l) ∈ [(i, j)] ∧ b.tile_status k l = TILE_CLOSED
        · rw [if_pos hcond]
          have heq : (k, l) = (i, j) := List.mem_singleton.mp hcond.1
          rw [Prod.mk.injEq] at heq
          exact Or.inr ⟨hcond.2, rfl, heq.1 ▸ hi, heq.2 ▸ hj, hm'⟩
        · rw [if_neg hcond]
          exact Or.inl rfl
      · obtain ⟨hcl1, hop2, hk1, hl1, _⟩ := h2
        have hbcl : b.tile_status k l = TILE_CLOSED := by
          rw [hstat1 k l] at hcl1
          by_cases hcond : (k, l) ∈ [(i, j)] ∧ b.tile_status k l = TILE_CLOSED
          · rw [if_pos hcond] at hcl1
            exact absurd hcl1 (by simp [TILE_OPENED, TILE_CLOSED])
          · rwa [if_neg hcond] at hcl1
        exact Or.inr ⟨hbcl, hop2, hk1, hl1, hm'⟩
  have hdec : b2.tiles_to_open < b.tiles_to_open := by
    have hsub2 : unopenedSafe b2 ⊆ unopenedSafe b1 :=
      unopenedSafe_subset_of_mono hloop.rows hloop.cols hloop.mine_fun hloop.mono
    have hle : (unopenedSafe b2).card ≤ (unopenedSafe b1).card :=
      Finset.card_le_card hsub2
    rw [httop2, httop]
    rw [hcard1] at hle
    omega
  have hzc2 : ZeroClosure b [] → ZeroClosure b2 [] := fun hzb =>
    hloop.zero (zeroClosure_seed hzb)
  by_cases hvic : b2.tiles_to_open = 0
  · rw [hot, if_pos hvic]
    refine ⟨hrw, hcw, hnm, hmf, hmcf, hli, ?_, ?_, ?_, ?_, ?_, ?_⟩
    · show (if b2.is_mine i j = true then TILE_CHECKED else b2.tile_status i j)
        = TILE_OPENED
      rw [hmf, hsafe]
      simpa using hseed2
    · intro k l hm
      have hit : (if b2.is_mine k l = true then TILE_CHECKED else b2.tile_status k l)
          = b2.tile_status k l := by
        rw [hmf, hm]
        simp
      show (if b2.is_mine k l = true then TILE_CHECKED else b2.tile_status k l)
          = b.tile_status k l ∨ (b.tile_status k l = TILE_CLOSED ∧
        (if b2.is_mine k l = true then TILE_CHECKED else b2.tile_status k l)
          = TILE_OPENED)
      rw [hit]
      exact hsafeMono2 k l hm
    · show b2.tiles_to_open < b.tiles_to_open
      exact hdec
    · rw [unopenedSafe_victory_flag b2]
      show b2.tiles_to_open - ((unopenedSafe b2).card : Int)
        = b.tiles_to_open - ((unopenedSafe b).card : Int)
      rw [httop2, httop]
      simp
    · intro hzb
      have hz2 : ZeroClosure b2 [] := hzc2 hzb
      intro k hk l hl hop hmc
      have hop' : (if b2.is_mine k l then TILE_CHECKED
          else b2.tile_status k l) = TILE_OPENED := hop
      by_cases hm : b2.is_mine k l = true
      · rw [hm] at hop'
        simp [TILE_CHECKED, TILE_OPENED] at hop'
      · have hm' : b2.is_mine k l = false := by
          cases hbm : b2.is_mine k l
          · rfl
          · exact absurd hbm hm
        rw [hm'] at hop'
        simp only [Bool.false_eq_true, if_false] at hop'
        have hz := hz2 k hk l hl hop' hmc
        rcases hz with h | h
        · exact absurd h (List.not_mem_nil _)
        · right
          intro p hp
          have hb := h p hp
          show (if b2.is_mine p.1 p.2 then TILE_CHECKED
              else b2.tile_status p.1 p.2) ≠ TILE_CLOSED
          by_cases hpm : b2.is_mine p.1 p.2 = true
          · rw [hpm]
            simp [TILE_CHECKED, TILE_CLOSED]
          · have hpm' : b2.is_mine p.1 p.2 = false := by
              cases hq : b2.is_mine p.1 p.2
              · rfl
              · exact absurd hq hpm
            rw [hpm']
            simpa using hb
    · right
      refine ⟨rfl, hvic, rfl, ?_, ?_⟩
      · intro k l hm
        show (if b2.is_mine k l = true then TILE_CHECKED else b2.tile_status k l)
            = TILE_CHECKED
        rw [hmf, hm]
        simp
      · intro k l hk hl
        show (if b2.is_mine k l = true then TILE_CHECKED else b2.tile_status k l)
            ≠ TILE_CLOSED
        rw [hmf]
        cases hbm : b.is_mine k l
        · simp only [Bool.false_eq_true, if_false]
          have hempty : (unopenedSafe b2).card = 0 := by
            rw [httop2] at hvic
            exact_mod_cast hvic
          intro hcl
          have hmem : (k, l) ∈ unopenedSafe b2 := mem_unopenedSafe.mpr
            ⟨⟨by rw [hrw]; exact hk, by rw [hcw]; exact hl⟩,
              by rw [hmf]; exact hbm, by simp [hcl, TILE_CLOSED, TILE_OPENED]⟩
          rw [Finset.card_eq_zero.mp hempty] at hmem
          exact absurd hmem (Finset.not_mem_empty _)
        · simp [TILE_CHECKED, TILE_CLOSED]
  · rw [hot, if_neg hvic]
    refine ⟨hrw, hcw, hnm, hmf, hmcf, hli, hseed2, hsafeMono2, hdec,
      by rw [httop2, httop]; simp, hzc2, ?_⟩
    left
    have hrun2 : b2.game_status = "running" := by rw [hgs]; exact hrun
    refine ⟨hrun2, ⟨hrun2, countsOK_congr hrw hcw hmf hmcf hcounts,
      httop2, ?_⟩, ?_, hml, hmine2⟩
    · intro k hk l hl hm
      rw [hrw] at hk
      rw [hcw] at hl
      have hm' : b.is_mine k l = true := by rwa [hmf] at hm
      rw [hmine2 k l hm']
      exact hnomine k hk l hl hm'
    · rw [httop2]
      rw [httop2] at hvic
      have : 0 ≤ ((unopenedSafe b2).card : Int) := by positivity
      omega

/-! ## Specification of the chord branch loop -/

theorem chord_loop_noop : ∀ (L : List (Nat × Nat)) (b : Board),
    (∀ p ∈ L, b.tile_status p.1 p.2 ≠ TILE_CLOSED) → chord_loop b L = b := by
  intro L
  induction L with
  | nil => intro b _; rfl
  | cons hd rest ih =>
    intro b h
    obtain ⟨k, l⟩ := hd
    have hne := h (k, l) (List.mem_cons_self _ _)
    simp only [chord_loop, if_neg hne]
    exact ih b fun p hp => h p (List.mem_cons_of_mem _ hp)

theorem safeMono_trans {b c r : Board} (hmine : c.is_mine = b.is_mine)
    (h1 : ∀ k l, b.is_mine k l = false →
      c.tile_status k l = b.tile_status k l ∨
        (b.tile_status k l = TILE_CLOSED ∧ c.tile_status k l = TILE_OPENED))
    (h2 : ∀ k l, c.is_mine k l = false →
      r.tile_status k l = c.tile_status k l ∨
        (c.tile_status k l = TILE_CLOSED ∧ r.tile_status k l = TILE_OPENED)) :
    ∀ k l, b.is_mine k l = false →
      r.tile_status k l = b.tile_status k l ∨
        (b.tile_status k l = TILE_CLOSED ∧ r.tile_status k l = TILE_OPENED) := by
  intro k l hm
  have hmc : c.is_mine k l = false := by rw [hmine]; exact hm
  rcases h2 k l hmc with h | h
  · rcases h1 k l hm with h' | h'
    · exact Or.inl (h.trans h')
    · exact Or.inr ⟨h'.1, h.trans h'.2⟩
  · rcases h1 k l hm with h' | h'
    · exact Or.inr ⟨h'.symm.trans h.1, h.2⟩
    · exact absurd (h'.2.symm.trans h.1) (by simp [TILE_OPENED, TILE_CLOSED])

theorem chord_loop_spec : ∀ (L : List (Nat × Nat)) (b : Board),
    RunningInv b → (∀ p ∈ L, p.1 < b.n_rows ∧ p.2 < b.n_cols) →
    ChordOut b L (chord_loop b L) := by
  intro L
  induction L with
  | nil =>
    intro b hinv hL
    refine ⟨rfl, rfl, rfl, rfl, rfl, fun k l _ => Or.inl rfl,
      fun p hp => absurd hp (List.not_mem_nil _), ?_⟩
    exact Or.inl ⟨hinv.1, hinv, rfl, rfl, fun p hp => absurd hp (List.not_mem_nil _)⟩
  | cons hd rest ih =>
    intro b hinv hL
    obtain ⟨k, l⟩ := hd
    obtain ⟨hk, hl⟩ := hL (k, l) (List.mem_cons_self _ _)
    have hLrest : ∀ p ∈ rest, p.1 < b.n_rows ∧ p.2 < b.n_cols :=
      fun p hp => hL p (List.mem_cons_of_mem _ hp)
    by_cases hcl : b.tile_status k l = TILE_CLOSED
    · by_cases hm : b.is_mine k l = true
      · have hloop : chord_loop b ((k, l) :: rest) = { b with
            losing_indices := some (k, l)
            game_status := "game_over"
            tile_status := update2 b.tile_status k l TILE_OPENED } := by
          simp only [chord_loop, if_pos hcl, if_pos hm]
        rw [hloop]
        refine ⟨rfl, rfl, rfl, rfl, rfl, ?_, ?_, ?_⟩
        · intro k' l' hm2
          left
          show update2 b.tile_status k l TILE_OPENED k' l' = b.tile_status k' l'
          apply update2_ne
          intro h
          rw [h.1, h.2] at hm2
          rw [hm2] at hm
          exact absurd hm (by simp)
        · intro p hp hpcl hpsafe hng
          exact absurd rfl hng
        · right
          right
          refine ⟨rfl, (k, l), List.mem_cons_self _ _, hm, hcl, rfl, ?_, rfl, ?_⟩
          · show update2 b.tile_status k l TILE_OPENED k l = TILE_OPENED
            exact update2_same _ _ _ _
          · intro k' l' hne hm2
            show update2 b.tile_status k l TILE_OPENED k' l' = b.tile_status k' l'
            exact update2_ne _ _ _ _ hne
      · have hm' : b.is_mine k l = false := by
          cases hbm : b.is_mine k l
          · rfl
          · exact absurd hbm hm
        have hloop : chord_loop b ((k, l) :: rest)
            = chord_loop (open_tiles b k l) rest := by
          simp only [chord_loop, if_pos hcl, if_neg hm]
        rw [hloop]
        have hspec := open_tiles_spec hinv hk hl hcl hm'
        set b' := open_tiles b k l with hb'
        rcases hspec.outcome with hrunning | hvic
        · obtain ⟨hgs', hinv', hpos', hml', hmined'⟩ := hrunning
          have hrest' : ∀ p ∈ rest, p.1 < b'.n_rows ∧ p.2 < b'.n_cols := by
            intro p hp
            rw [hspec.rows, hspec.cols]
            exact hLrest p hp
          have hih := ih b' hinv' hrest'
          refine ⟨hih.rows.trans hspec.rows, hih.cols.trans hspec.cols,
            hih.mines.trans hspec.mines, hih.mine_fun.trans hspec.mine_fun,
            hih.counts.trans hspec.counts,
            safeMono_trans hspec.mine_fun hspec.safeMono hih.safeMono, ?_, ?_⟩
          · intro p hp hpcl hpsafe hng
            have hpsafe' : b'.is_mine p.1 p.2 = false := by
              rw [hspec.mine_fun]
              exact hpsafe
            rcases List.mem_cons.mp hp with heq | hp'
            · have hp1 : p.1 = k := by rw [heq]
              have hp2 : p.2 = l := by rw [heq]
              rw [hp1, hp2] at hpsafe' ⊢
              rcases hih.safeMono k l hpsafe' with h2 | h2
              · rw [h2]
                exact hspec.seed
              · exact h2.2
            · by_cases hpcl' : b'.tile_status p.1 p.2 = TILE_CLOSED
              · exact hih.opened p hp' hpcl' hpsafe' hng
              · have hop' : b'.tile_status p.1 p.2 = TILE_OPENED := by
                  rcases hspec.safeMono p.1 p.2 hpsafe with h2 | h2
                  · exact absurd (h2.trans hpcl) hpcl'
                  · exact h2.2
                rcases hih.safeMono p.1 p.2 hpsafe' with h2 | h2
                · rw [h2]
                  exact hop'
                · exact h2.2
          · rcases hih.outcome with h3 | h3 | h3
            · left
              obtain ⟨hgs3, hinv3, hli3, hml3, hsafe3⟩ := h3
              refine ⟨hgs3, hinv3, hli3.trans hspec.losing, hml3.trans hml', ?_⟩
              intro p hp
              rcases List.mem_cons.mp hp with heq | hp'
              · intro hc
                have hp1 : p.1 = k := by rw [heq]
                have hp2 : p.2 = l := by rw [heq]
                rw [hp1, hp2] at hc
                rw [hc.2] at hm'
                exact absurd hm' (by simp)
              · intro hc
                apply hsafe3 p hp'
                refine ⟨?_, by rw [hspec.mine_fun]; exact hc.2⟩
                rw [hmined' p.1 p.2 hc.2]
                exact hc.1
            · right
              left
              obtain ⟨hgs3, hml3, hncl3, hmck3⟩ := h3
              refine ⟨hgs3, hml3, ?_, ?_⟩
              · intro k' l' hk' hl'
                apply hncl3
                · rw [hspec.rows]
                  exact hk'
                · rw [hspec.cols]
                  exact hl'
              · intro k' l' hm2
                apply hmck3
                rw [hspec.mine_fun]
                exact hm2
            · right
              right
              obtain ⟨hgs3, p, hp, hpm, hpcl3, hli3, hop3, hml3, hother3⟩ := h3
              have hpmb : b.is_mine p.1 p.2 = true := by
                rw [← hspec.mine_fun]
                exact hpm
              refine ⟨hgs3, p, List.mem_cons_of_mem _ hp, hpmb, ?_, hli3, hop3,
                hml3.trans hml', ?_⟩
              · rw [← hmined' p.1 p.2 hpmb]
                exact hpcl3
              · intro k' l' hne hm2
                have hm2' : b'.is_mine k' l' = true := by
                  rw [hspec.mine_fun]
                  exact hm2
                rw [hother3 k' l' hne hm2']
                exact hmined' k' l' hm2
        · obtain ⟨hgs', httop0, hml0, hmck, hncl⟩ := hvic
          have hnoop : chord_loop b' rest = b' := by
            apply chord_loop_noop
            intro p hp
            exact hncl p.1 p.2 (hLrest p hp).1 (hLrest p hp).2
          rw [hnoop]
          refine ⟨hspec.rows, hspec.cols, hspec.mines, hspec.mine_fun,
            hspec.counts, hspec.safeMono, ?_, ?_⟩
          · intro p hp hpcl hpsafe hng
            rcases List.mem_cons.mp hp with heq | hp'
            · have hp1 : p.1 = k := by rw [heq]
              have hp2 : p.2 = l := by rw [heq]
              rw [hp1, hp2]
              exact hspec.seed
            · rcases hspec.safeMono p.1 p.2 hpsafe with h2 | h2
              · exfalso
                apply hncl p.1 p.2 (hLrest p hp').1 (hLrest p hp').2
                rw [h2]
                exact hpcl
              · exact h2.2
          · right
            left
            exact ⟨hgs', hml0, hncl, hmck⟩
    · have hloop : chord_loop b ((k, l) :: rest) = chord_loop b rest := by
        simp only [chord_loop, if_neg hcl]
      rw [hloop]
      have hih := ih b hinv hLrest
      refine ⟨hih.rows, hih.cols, hih.mines, hih.mine_fun, hih.counts,
        hih.safeMono, ?_, ?_⟩
      · intro p hp hpcl hpsafe hng
        rcases List.mem_cons.mp hp with heq | hp'
        · have hp1 : p.1 = k := by rw [heq]
          have hp2 : p.2 = l := by rw [heq]
          rw [hp1, hp2] at hpcl
          exact absurd hpcl hcl
        · exact hih.opened p hp' hpcl hpsafe hng
      · rcases hih.outcome with h3 | h3 | h3
        · left
          refine ⟨h3.1, h3.2.1, h3.2.2.1, h3.2.2.2.1, ?_⟩
          intro p hp
          rcases List.mem_cons.mp hp with heq | hp'
          · intro hc
            have hp1 : p.1 = k := by rw [heq]
            have hp2 : p.2 = l := by rw [heq]
            rw [hp1, hp2] at hc
            exact absurd hc.1 hcl
          · exact h3.2.2.2.2 p hp'
        · right
          left
          exact h3
        · right
          right
          obtain ⟨hgs3, p, hp, hrest⟩ := h3
          exact ⟨hgs3, p, List.mem_cons_of_mem _ hp, hrest⟩

theorem find?_congr {α : Type} {f g : α → Bool} : ∀ (l : List α),
    (∀ x ∈ l, f x = g x) → l.find? f = l.find? g := by
  intro l
  induction l with
  | nil => intro _; rfl
  | cons hd tl ih =>
    intro h
    have hhd := h hd (List.mem_cons_self _ _)
    cases hg : g hd
    · have h1 : (hd :: tl).find? f = tl.find? f :=
        List.find?_cons_of_neg _ (by rw [hhd, hg]; simp)
      have h2 : (hd :: tl).find? g = tl.find? g :=
        List.find?_cons_of_neg _ (by rw [hg]; simp)
      rw [h1, h2]
      exact ih fun x hx => h x (List.mem_cons_of_mem _ hx)
    · have h1 : (hd :: tl).find? f = some hd :=
        List.find?_cons_of_pos _ (by rw [hhd, hg])
      have h2 : (hd :: tl).find? g = some hd :=
        List.find?_cons_of_pos _ (by rw [hg])
      rw [h1, h2]

/-- If the flagged-neighbor count of a chord cell matches its (correct)
adjacency count and some neighbor is a still-closed mine, then some
neighbor is a wrongly placed flag: a flag sits on a safe cell. (Counting:
the flags all sitting on mines would leave at most `count − 1` flags for
the `count` mines, since the closed mine carries none.) -/
theorem exists_flagged_safe_neighbor {b : Board} {i j : Nat} {p0 : Nat × Nat}
    (hcounts : countsOK b) (hi : i < b.n_rows) (hj : j < b.n_cols)
    (hflag : ((get_neighbors b.n_rows b.n_cols i j).countP fun p =>
      decide (b.tile_status p.1 p.2 = TILE_CHECKED)) = b.mine_count i j)
    (hp0 : p0 ∈ get_neighbors b.n_rows b.n_cols i j)
    (hp0m : b.is_mine p0.1 p0.2 = true)
    (hp0cl : b.tile_status p0.1 p0.2 = TILE_CLOSED) :
    ∃ q ∈ get_neighbors b.n_rows b.n_cols i j,
      b.is_mine q.1 q.2 = false ∧ b.tile_status q.1 q.2 = TILE_CHECKED := by
  by_contra hno
  push_neg at hno
  set N := get_neighbors b.n_rows b.n_cols i j with hN
  have hnd : N.Nodup := get_neighbors_nodup _ _ _ _
  have hp0M : p0 ∈ (N.filter fun p => b.is_mine p.1 p.2).toFinset := by
    rw [List.mem_toFinset, List.mem_filter]
    exact ⟨hp0, hp0m⟩
  have hFsub : (N.filter fun p =>
        decide (b.tile_status p.1 p.2 = TILE_CHECKED)).toFinset
      ⊆ ((N.filter fun p => b.is_mine p.1 p.2).toFinset).erase p0 := by
    intro q hq
    rw [List.mem_toFinset, List.mem_filter] at hq
    have hqck : b.tile_status q.1 q.2 = TILE_CHECKED := by simpa using hq.2
    have hqm : b.is_mine q.1 q.2 = true := by
      cases hqm' : b.is_mine q.1 q.2
      · exact absurd hqck (hno q hq.1 hqm')
      · rfl
    refine Finset.mem_erase.mpr ⟨?_, ?_⟩
    · intro hqp
      rw [hqp, hp0cl] at hqck
      exact absurd hqck (by simp [TILE_CLOSED, TILE_CHECKED])
    · rw [List.mem_toFinset, List.mem_filter]
      exact ⟨hq.1, hqm⟩
  have hFcard : (N.filter fun p =>
        decide (b.tile_status p.1 p.2 = TILE_CHECKED)).toFinset.card
      = N.countP fun p => decide (b.tile_status p.1 p.2 = TILE_CHECKED) := by
    rw [List.toFinset_card_of_nodup (hnd.filter _), List.countP_eq_length_filter]
  have hMcard : (N.filter fun p => b.is_mine p.1 p.2).toFinset.card
      = minedNeighborCount b i j :=
    List.toFinset_card_of_nodup (hnd.filter _)
  have hle := Finset.card_le_card hFsub
  rw [Finset.card_erase_of_mem hp0M] at hle
  have hMpos : 0 < (N.filter fun p => b.is_mine p.1 p.2).toFinset.card :=
    Finset.card_pos.mpr ⟨p0, hp0M⟩
  have hcnt := hcounts i hi j hj
  omega

/-- The chord neighbor loop on a consistent running board with a wrongly
flagged safe in-grid cell `q`: if the list holds a closed mined cell, the
loop detonates exactly the first one (in list order, as `List.find?`
selects it): game over, that cell recorded in `losing_indices` and opened,
the mine estimate untouched, and every other mined cell's status
untouched. (The flag on `q` survives every inner flood fill and keeps
`tiles_to_open` positive, so no mid-chord victory can preempt the
detonation.) -/
theorem chord_loop_detonates : ∀ (L : List (Nat × Nat)) (b : Board)
    (q p : Nat × Nat), RunningInv b →
    (∀ x ∈ L, x.1 < b.n_rows ∧ x.2 < b.n_cols) →
    q.1 < b.n_rows → q.2 < b.n_cols → b.is_mine q.1 q.2 = false →
    b.tile_status q.1 q.2 = TILE_CHECKED →
    (L.find? fun x => decide (b.tile_status x.1 x.2 = TILE_CLOSED)
      && b.is_mine x.1 x.2) = some p →
    (chord_loop b L).game_status = "game_over" ∧
      (chord_loop b L).losing_indices = some p ∧
      (chord_loop b L).tile_status p.1 p.2 = TILE_OPENED ∧
      (chord_loop b L).n_mines_left = b.n_mines_left ∧
      (∀ k l, ¬(k = p.1 ∧ l = p.2) → b.is_mine k l = true →
        (chord_loop b L).tile_status k l = b.tile_status k l) := by
  intro L
  induction L with
  | nil =>
    intro b q p _ _ _ _ _ _ hfind
    exact absurd hfind (by simp)
  | cons hd rest ih =>
    intro b q p hinv hL hq1 hq2 hqm hqck hfind
    obtain ⟨k, l⟩ := hd
    obtain ⟨hk, hl⟩ := hL (k, l) (List.mem_cons_self _ _)
    have hLrest : ∀ x ∈ rest, x.1 < b.n_rows ∧ x.2 < b.n_cols :=
      fun x hx => hL x (List.mem_cons_of_mem _ hx)
    by_cases hcl : b.tile_status k l = TILE_CLOSED
    · by_cases hm : b.is_mine k l = true
      · have hsome : (((k, l) :: rest).find? fun x =>
            decide (b.tile_status x.1 x.2 = TILE_CLOSED)
              && b.is_mine x.1 x.2) = some (k, l) :=
          List.find?_cons_of_pos _ (by simp [hcl, hm])
        have hp : p = (k, l) := (Option.some.inj (hsome.symm.trans hfind)).symm
        have hloop : chord_loop b ((k, l) :: rest) = { b with
            losing_indices := some (k, l)
            game_status := "game_over"
            tile_status := update2 b.tile_status k l TILE_OPENED } := by
          simp only [chord_loop, if_pos hcl, if_pos hm]
        rw [hloop, hp]
        refine ⟨rfl, rfl, update2_same _ _ _ _, rfl, ?_⟩
        intro k' l' hne _
        exact update2_ne _ _ _ _ (by simpa using hne)
      · have hm' : b.is_mine k l = false := by
          cases hbm : b.is_mine k l
          · rfl
          · exact absurd hbm hm
        have hstep : (((k, l) :: rest).find? fun x =>
            decide (b.tile_status x.1 x.2 = TILE_CLOSED)
              && b.is_mine x.1 x.2) = (rest.find? fun x =>
            decide (b.tile_status x.1 x.2 = TILE_CLOSED)
              && b.is_mine x.1 x.2) :=
          List.find?_cons_of_neg _ (by simp [hm'])
        have hfind' := hstep.symm.trans hfind
        have hloop : chord_loop b ((k, l) :: rest)
            = chord_loop (open_tiles b k l) rest := by
          simp only [chord_loop, if_pos hcl, if_neg hm]
        rw [hloop]
        have hspec := open_tiles_spec hinv hk hl hcl hm'
        set b' := open_tiles b k l with hb'
        have hqck' : b'.tile_status q.1 q.2 = TILE_CHECKED := by
          rcases hspec.safeMono q.1 q.2 hqm with h | h
          · rw [h]
            exact hqck
          · rw [hqck] at h
            exact absurd h.1 (by simp [TILE_CHECKED, TILE_CLOSED])
        rcases hspec.outcome with hrunning | hvic
        · obtain ⟨hgs', hinv', hpos', hml', hmined'⟩ := hrunning
          have hrest' : ∀ x ∈ rest, x.1 < b'.n_rows ∧ x.2 < b'.n_cols := by
            intro x hx
            rw [hspec.rows, hspec.cols]
            exact hLrest x hx
          have hq1' : q.1 < b'.n_rows := by
            rw [hspec.rows]
            exact hq1
          have hq2' : q.2 < b'.n_cols := by
            rw [hspec.cols]
            exact hq2
          have hqm' : b'.is_mine q.1 q.2 = false := by
            rw [hspec.mine_fun]
            exact hqm
          have hfind'' : (rest.find? fun x =>
              decide (b'.tile_status x.1 x.2 = TILE_CLOSED)
                && b'.is_mine x.1 x.2) = some p := by
            refine (find?_congr rest ?_).trans hfind'
            intro x hx
            show (decide (b'.tile_status x.1 x.2 = TILE_CLOSED)
                && b'.is_mine x.1 x.2)
              = (decide (b.tile_status x.1 x.2 = TILE_CLOSED)
                && b.is_mine x.1 x.2)
            cases hxm : b.is_mine x.1 x.2
            · have hxm' : b'.is_mine x.1 x.2 = false := by
                rw [hspec.mine_fun]
                exact hxm
              rw [hxm']
              simp
            · have hxm' : b'.is_mine x.1 x.2 = true := by
                rw [hspec.mine_fun]
                exact hxm
              rw [hxm', hmined' x.1 x.2 hxm]
          obtain ⟨hgo, hli, hpo, hml, hother⟩ :=
            ih b' q p hinv' hrest' hq1' hq2' hqm' hqck' hfind''
          refine ⟨hgo, hli, hpo, hml.trans hml', ?_⟩
          intro k' l' hne hm2
          rw [hother k' l' hne (by rw [hspec.mine_fun]; exact hm2)]
          exact hmined' k' l' hm2
        · exfalso
          obtain ⟨hgs', httop0, hml0, hmck, hncl⟩ := hvic
          have hqmem : q ∈ unopenedSafe b' := mem_unopenedSafe.mpr
            ⟨⟨by rw [hspec.rows]; exact hq1, by rw [hspec.cols]; exact hq2⟩,
              by rw [hspec.mine_fun]; exact hqm,
              by rw [hqck']; simp [TILE_CHECKED, TILE_OPENED]⟩
          have hcount := hspec.count
          rw [httop0, hinv.2.2.1] at hcount
          have hpos : 0 < (unopenedSafe b').card := Finset.card_pos.mpr ⟨q, hqmem⟩
          omega
    · have hstep : (((k, l) :: rest).find? fun x =>
          decide (b.tile_status x.1 x.2 = TILE_CLOSED)
            && b.is_mine x.1 x.2) = (rest.find? fun x =>
          decide (b.tile_status x.1 x.2 = TILE_CLOSED)
            && b.is_mine x.1 x.2) :=
        List.find?_cons_of_neg _ (by simp [hcl])
      have hfind' := hstep.symm.trans hfind
      have hloop : chord_loop b ((k, l) :: rest) = chord_loop b rest := by
        simp only [chord_loop, if_neg hcl]
      rw [hloop]
      exact ih b q p hinv hLrest hq1 hq2 hqm hqck hfind'

/-! ## Mine placement -/

theorem mem_allowed_positions {n_rows n_cols n_mines i_click j_click : Nat}
    {p : Nat × Nat} :
    p ∈ allowed_positions n_rows n_cols n_mines i_click j_click ↔
      p.1 < n_rows ∧ p.2 < n_cols ∧
        (((p.1 : Int) - (i_click : Int)).natAbs > 1
          ∨ ((p.2 : Int) - (j_click : Int)).natAbs > 1
          ∨ ((n_mines : Int) > (n_rows * n_cols : Int) - 9
              ∧ (p.1 ≠ i_click ∨ p.2 ≠ j_click))
          ∨ n_mines = n_rows * n_cols) := by
  obtain ⟨i, j⟩ := p
  simp only [allowed_positions, List.mem_flatMap, List.mem_map, List.mem_filter,
    List.mem_range, decide_eq_true_eq, Prod.mk.injEq]
  constructor
  · rintro ⟨a, ha, ⟨j', ⟨hj', hcond⟩, heq1, heq2⟩⟩
    subst heq1
    subst heq2
    exact ⟨ha, hj', hcond⟩
  · rintro ⟨hi, hj, hcond⟩
    exact ⟨i, hi, j, ⟨hj, hcond⟩, rfl, rfl⟩

theorem get_neighbors_symm {n_rows n_cols i j k l : Nat}
    (hi : i < n_rows) (hj : j < n_cols) (hk : k < n_rows) (hl : l < n_cols) :
    (k, l) ∈ get_neighbors n_rows n_cols i j ↔
      (i, j) ∈ get_neighbors n_rows n_cols k l := by
  rw [mem_get_neighbors hi hj, mem_get_neighbors hk hl]
  constructor
  · rintro ⟨_, _, hne, h4, h5, h6, h7⟩
    exact ⟨hi, hj, fun h => hne ⟨h.1.symm, h.2.symm⟩, by omega, by omega, by omega, by omega⟩
  · rintro ⟨_, _, hne, h4, h5, h6, h7⟩
    exact ⟨hk, hl, fun h => hne ⟨h.1.symm, h.2.symm⟩, by omega, by omega, by omega, by omega⟩

theorem bump_apply : ∀ (L : List (Nat × Nat)), L.Nodup →
    ∀ (mc : Nat → Nat → Nat) (k l : Nat),
      bump mc L k l = mc k l + (if (k, l) ∈ L then 1 else 0) := by
  intro L
  induction L with
  | nil =>
    intro _ mc k l
    simp [bump]
  | cons p L ih =>
    intro hnd mc k l
    obtain ⟨p1, p2⟩ := p
    have hp : (p1, p2) ∉ L := (List.nodup_cons.mp hnd).1
    have hb : bump mc ((p1, p2) :: L)
        = bump (update2 mc p1 p2 (mc p1 p2 + 1)) L := rfl
    rw [hb, ih (List.nodup_cons.mp hnd).2]
    by_cases hkl : k = p1 ∧ l = p2
    · have hklp : (k, l) = (p1, p2) := by rw [Prod.mk.injEq]; exact hkl
      have hnotin : (k, l) ∉ L := by rw [hklp]; exact hp
      rw [if_neg hnotin, if_pos (by rw [hklp]; exact List.mem_cons_self _ _)]
      rw [hkl.1, hkl.2, update2_same]
    · have hklp : (k, l) ≠ (p1, p2) := by
        rw [Ne, Prod.mk.injEq]
        exact hkl
      rw [update2_ne _ _ _ _ hkl]
      by_cases hmem : (k, l) ∈ L
      · rw [if_pos hmem, if_pos (List.mem_cons_of_mem _ hmem)]
      · rw [if_neg hmem, if_neg (by
          intro hc
          rcases List.mem_cons.mp hc with h | h
          · exact hklp h
          · exact hmem h)]

theorem put_mines_mine_count (b : Board) :
    ∀ (sel : List (Nat × Nat)) (mc0 : Nat → Nat → Nat) (k l : Nat),
      (sel.foldl
          (fun mc p => bump mc (get_neighbors b.n_rows b.n_cols p.1 p.2)) mc0) k l
        = mc0 k l + (sel.filter fun p =>
            decide ((k, l) ∈ get_neighbors b.n_rows b.n_cols p.1 p.2)).length := by
  intro sel
  induction sel with
  | nil =>
    intro mc0 k l
    simp
  | cons p sel ih =>
    intro mc0 k l
    rw [List.foldl_cons, ih, bump_apply _ (get_neighbors_nodup _ _ _ _),
      List.filter_cons]
    by_cases hmem : (k, l) ∈ get_neighbors b.n_rows b.n_cols p.1 p.2
    · rw [if_pos hmem]
      simp only [decide_eq_true_eq, hmem, if_pos, List.length_cons]
      omega
    · rw [if_neg hmem]
      simp only [hmem, decide_False]
      simp

theorem length_filter_mem {A B : List (Nat × Nat)} (hA : A.Nodup) :
    (A.filter fun a => decide (a ∈ B)).length = (A.toFinset ∩ B.toFinset).card := by
  have h1 : (A.filter fun a => decide (a ∈ B)).toFinset.card
      = (A.filter fun a => decide (a ∈ B)).length :=
    List.toFinset_card_of_nodup (hA.filter _)
  rw [← h1, List.toFinset_filter]
  congr 1
  ext a
  simp [Finset.mem_filter, Finset.mem_inter]

theorem countsOK_put_mines {b : Board} {sel : List (Nat × Nat)}
    (hnodup : sel.Nodup)
    (hgrid : ∀ p ∈ sel, p.1 < b.n_rows ∧ p.2 < b.n_cols)
    (hpre : ∀ i < b.n_rows, ∀ j < b.n_cols, b.is_mine i j = false) :
    countsOK (put_mines b sel) := by
  intro i hi j hj
  have hdim_r : (put_mines b sel).n_rows = b.n_rows := rfl
  have hdim_c : (put_mines b sel).n_cols = b.n_cols := rfl
  rw [hdim_r] at hi
  rw [hdim_c] at hj
  have hlhs : (put_mines b sel).mine_count i j
      = (sel.filter fun p =>
          decide ((i, j) ∈ get_neighbors b.n_rows b.n_cols p.1 p.2)).length := by
    have := put_mines_mine_count b sel (fun _ _ => 0) i j
    simpa [put_mines] using this
  have hsymm_filter : (sel.filter fun p =>
        decide ((i, j) ∈ get_neighbors b.n_rows b.n_cols p.1 p.2))
      = sel.filter fun p => decide (p ∈ get_neighbors b.n_rows b.n_cols i j) := by
    apply List.filter_congr
    intro p hp
    have hpg := hgrid p hp
    simp only [decide_eq_decide]
    have := get_neighbors_symm (i := p.1) (j := p.2) (k := i) (l := j)
      hpg.1 hpg.2 hi hj
    rw [← this]
  have hrhs : minedNeighborCount (put_mines b sel) i j
      = ((get_neighbors b.n_rows b.n_cols i j).filter
          fun p => decide (p ∈ sel)).length := by
    unfold minedNeighborCount
    rw [hdim_r, hdim_c]
    congr 1
    apply List.filter_congr
    intro p hp
    have hpg := get_neighbors_inGrid hi hj p hp
    show (put_mines b sel).is_mine p.1 p.2 = decide (p ∈ sel)
    have : (put_mines b sel).is_mine p.1 p.2
        = (decide ((p.1, p.2) ∈ sel) || b.is_mine p.1 p.2) := rfl
    rw [this, hpre p.1 hpg.1 p.2 hpg.2, Bool.or_false]
  rw [hlhs, hsymm_filter, hrhs]
  have h1 : (sel.filter fun p =>
        decide (p ∈ get_neighbors b.n_rows b.n_cols i j)).length
      = (sel.toFinset ∩ (get_neighbors b.n_rows b.n_cols i j).toFinset).card :=
    length_filter_mem hnodup
  have h2 : ((get_neighbors b.n_rows b.n_cols i j).filter
        fun p => decide (p ∈ sel)).length
      = ((get_neighbors b.n_rows b.n_cols i j).toFinset ∩ sel.toFinset).card :=
    length_filter_mem (get_neighbors_nodup _ _ _ _)
  rw [h1, h2, Finset.inter_comm]

/-- The first click on a `before_start` board: after `_put_mines` and
the transition to `running`, the board satisfies the running-state
invariant, and (unless the board is the degenerate total-mine one) the
clicked cell itself is not mined. -/
theorem before_start_setup {b : Board} {sel : List (Nat × Nat)} {i j : Nat}
    (hbs : BeforeStartInv b) (hs : SampleValid b sel i j)
    (hi : i < b.n_rows) (hj : j < b.n_cols) :
    RunningInv { put_mines b sel with game_status := "running" } ∧
      (b.n_mines < b.n_rows * b.n_cols →
        ({ put_mines b sel with game_status := "running" } : Board).is_mine i j
          = false) := by
  obtain ⟨hgs, hclosed, hmine0, httop⟩ := hbs
  obtain ⟨hnd, hlen, hsub⟩ := hs
  set bp : Board := { put_mines b sel with game_status := "running" } with hbp
  have hgrid : ∀ p ∈ sel, p.1 < b.n_rows ∧ p.2 < b.n_cols := by
    intro p hp
    have h := mem_allowed_positions.mp (hsub p hp)
    exact ⟨h.1, h.2.1⟩
  have hism : ∀ k l, bp.is_mine k l = (decide ((k, l) ∈ sel) || b.is_mine k l) :=
    fun k l => rfl
  have hsubF : sel.toFinset ⊆ gridF b := by
    intro p hp
    rw [List.mem_toFinset] at hp
    exact mem_gridF.mpr (hgrid p hp)
  have hcardsel : sel.toFinset.card = b.n_mines := by
    rw [List.toFinset_card_of_nodup hnd, hlen]
  have hgcard : (gridF b).card = b.n_rows * b.n_cols := by
    simp [gridF, Finset.card_product]
  have hnmle : b.n_mines ≤ b.n_rows * b.n_cols := by
    rw [← hcardsel, ← hgcard]
    exact Finset.card_le_card hsubF
  have hcs : unopenedSafe bp = gridF b \ sel.toFinset := by
    ext p
    rw [mem_unopenedSafe, Finset.mem_sdiff, mem_gridF]
    constructor
    · rintro ⟨hg, hm, _⟩
      have hg' : p.1 < b.n_rows ∧ p.2 < b.n_cols := hg
      refine ⟨hg', ?_⟩
      rw [hism p.1 p.2, hmine0 p.1 hg'.1 p.2 hg'.2, Bool.or_false] at hm
      rw [List.mem_toFinset]
      simpa using hm
    · rintro ⟨hg, hns⟩
      have h1 : p.1 < bp.n_rows ∧ p.2 < bp.n_cols := hg
      refine ⟨h1, ?_, ?_⟩
      · rw [hism p.1 p.2, hmine0 p.1 hg.1 p.2 hg.2, Bool.or_false]
        rw [List.mem_toFinset] at hns
        simpa using hns
      · have hclp : bp.tile_status p.1 p.2 = TILE_CLOSED := hclosed p.1 hg.1 p.2 hg.2
        rw [hclp]
        simp [TILE_CLOSED, TILE_OPENED]
  have hcscard : (unopenedSafe bp).card = b.n_rows * b.n_cols - b.n_mines := by
    rw [hcs, Finset.card_sdiff hsubF, hcardsel, hgcard]
  refine ⟨⟨rfl, ?_, ?_, ?_⟩, ?_⟩
  · exact countsOK_congr rfl rfl rfl rfl (countsOK_put_mines hnd hgrid hmine0)
  · show b.tiles_to_open = ((unopenedSafe bp).card : Int)
    rw [hcscard, httop, Nat.cast_sub hnmle]
    push_cast
    ring
  · intro k hk l hl _
    have : bp.tile_status k l = TILE_CLOSED := hclosed k hk l hl
    rw [this]
    simp [TILE_CLOSED, TILE_OPENED]
  · intro hlt
    rw [hism i j, hmine0 i hi j hj, Bool.or_false]
    have hnotal : (i, j) ∉ allowed_positions b.n_rows b.n_cols b.n_mines i j := by
      intro hmem
      rcases (mem_allowed_positions.mp hmem).2.2 with h | h | h | h
      · simp at h
      · simp at h
      · rcases h.2 with h' | h' <;> exact h' rfl
      · omega
    have : (i, j) ∉ sel := fun hmem => hnotal (hsub _ hmem)
    simpa using this

/-! ## Unconditional frame facts about the wave loop -/

theorem open_tiles_loop_frame : ∀ (fuel : Nat) (b : Board) (q : List (Nat × Nat)),
    (open_tiles_loop fuel b q).game_status = b.game_status ∧
      (open_tiles_loop fuel b q).is_mine = b.is_mine ∧
      (open_tiles_loop fuel b q).n_rows = b.n_rows ∧
      (open_tiles_loop fuel b q).n_cols = b.n_cols := by
  intro fuel
  induction fuel with
  | zero => intro b q; exact ⟨rfl, rfl, rfl, rfl⟩
  | succ fuel ih =>
    intro b q
    cases q with
    | nil => exact ⟨rfl, rfl, rfl, rfl⟩
    | cons hd rest =>
      obtain ⟨i, j⟩ := hd
      by_cases hmc : 0 < b.mine_count i j
      · have hloop : open_tiles_loop (fuel + 1) b ((i, j) :: rest)
            = open_tiles_loop fuel b rest := by
          simp only [open_tiles_loop, if_pos hmc]
        rw [hloop]
        exact ih b rest
      · have hloop : open_tiles_loop (fuel + 1) b ((i, j) :: rest)
            = open_tiles_loop fuel (open_tiles_step b i j).1
                (rest ++ (open_tiles_step b i j).2) := by
          simp only [open_tiles_loop, if_neg hmc]
        rw [hloop]
        have hfs : FoldSpec b [] (get_neighbors b.n_rows b.n_cols i j)
            (open_tiles_step b i j) :=
          open_fold_spec _ b [] (get_neighbors_nodup _ _ _ _)
        have hih := ih (open_tiles_step b i j).1
          (rest ++ (open_tiles_step b i j).2)
        exact ⟨hih.1.trans hfs.status_game, hih.2.1.trans hfs.mine_fun,
          hih.2.2.1.trans hfs.rows, hih.2.2.2.trans hfs.cols⟩

theorem open_tiles_loop_opened_stays :
    ∀ (fuel : Nat) (b : Board) (q : List (Nat × Nat)) (k l : Nat),
      b.tile_status k l = TILE_OPENED →
      (open_tiles_loop fuel b q).tile_status k l = TILE_OPENED := by
  intro fuel
  induction fuel with
  | zero => intro b q k l h; exact h
  | succ fuel ih =>
    intro b q k l h
    cases q with
    | nil => exact h
    | cons hd rest =>
      obtain ⟨i, j⟩ := hd
      by_cases hmc : 0 < b.mine_count i j
      · have hloop : open_tiles_loop (fuel + 1) b ((i, j) :: rest)
            = open_tiles_loop fuel b rest := by
          simp only [open_tiles_loop, if_pos hmc]
        rw [hloop]
        exact ih b rest k l h
      · have hloop : open_tiles_loop (fuel + 1) b ((i, j) :: rest)
            = open_tiles_loop fuel (open_tiles_step b i j).1
                (rest ++ (open_tiles_step b i j).2) := by
          simp only [open_tiles_loop, if_neg hmc]
        rw [hloop]
        have hfs : FoldSpec b [] (get_neighbors b.n_rows b.n_cols i j)
            (open_tiles_step b i j) :=
          open_fold_spec _ b [] (get_neighbors_nodup _ _ _ _)
        apply ih
        rw [hfs.status k l, if_neg, h]
        intro hcond
        rw [h] at hcond
        exact absurd hcond.2 (by simp [TILE_OPENED, TILE_CLOSED])

/-! ## Claim theorems -/

/-- C1: first-click safety: on any pre-placement board (no mines yet)
with `mineCount ≤ rows*cols − 9`, after `_put_mines` triggered by the
first open at `(i_click, j_click)`, no in-grid cell at Chebyshev
distance at most 1 from the click (the clicked cell and its full 3×3
neighborhood) is a mine, for every valid random draw. -/
theorem C1_first_click_safety {b : Board} {sel : List (Nat × Nat)}
    {i_click j_click : Nat}
    (hpre : ∀ i < b.n_rows, ∀ j < b.n_cols, b.is_mine i j = false)
    (hs : SampleValid b sel i_click j_click)
    (hnm : b.n_mines ≤ b.n_rows * b.n_cols - 9) :
    ∀ i < b.n_rows, ∀ j < b.n_cols,
      ((i : Int) - (i_click : Int)).natAbs ≤ 1 →
      ((j : Int) - (j_click : Int)).natAbs ≤ 1 →
      (put_mines b sel).is_mine i j = false := by
  intro i hi j hj hci hcj
  have hism : (put_mines b sel).is_mine i j
      = (decide ((i, j) ∈ sel) || b.is_mine i j) := rfl
  rw [hism, hpre i hi j hj, Bool.or_false]
  suffices h : (i, j) ∉ sel by simpa using h
  intro hmem
  rcases Nat.eq_zero_or_pos b.n_mines with hz | hpos
  · have hlen0 : sel.length = 0 := by rw [hs.2.1, hz]
    rw [List.eq_nil_of_length_eq_zero hlen0] at hmem
    exact List.not_mem_nil _ hmem
  · have h9 : b.n_mines + 9 ≤ b.n_rows * b.n_cols := by omega
    have hal := mem_allowed_positions.mp (hs.2.2 _ hmem)
    have hcast : ((b.n_rows * b.n_cols : Nat) : Int)
        = (b.n_rows : Int) * (b.n_cols : Int) := by
      push_cast
      ring
    rcases hal.2.2 with h | h | h | h
    · simp only at h
      omega
    · simp only at h
      omega
    · have h1 := h.1
      rw [← hcast] at h1
      omega
    · omega

/-- C4: after mine placement with any valid draw, the stored
`mine_count` of every in-grid cell equals the number of mined cells
among its up-to-8 neighbors. -/
theorem C4_adjacent_counts {b : Board} {sel : List (Nat × Nat)}
    {i_click j_click : Nat}
    (hpre : ∀ i < b.n_rows, ∀ j < b.n_cols, b.is_mine i j = false)
    (hs : SampleValid b sel i_click j_click) :
    ∀ i < b.n_rows, ∀ j < b.n_cols,
      (put_mines b sel).mine_count i j
        = minedNeighborCount (put_mines b sel) i j := by
  have hgrid : ∀ p ∈ sel, p.1 < b.n_rows ∧ p.2 < b.n_cols := by
    intro p hp
    have h := mem_allowed_positions.mp (hs.2.2 p hp)
    exact ⟨h.1, h.2.1⟩
  exact countsOK_put_mines hs.1 hgrid hpre

/-- Case analysis of `_check_tile`: a closed tile gets flagged. -/
theorem check_tile_closed {b : Board} {i j : Nat}
    (h : b.tile_status i j = TILE_CLOSED) :
    check_tile b i j = { b with
      tile_status := update2 b.tile_status i j TILE_CHECKED
      n_mines_left := b.n_mines_left - 1 } := by
  unfold check_tile
  rw [if_pos h]

/-- Case analysis of `_check_tile`: a flagged tile gets unflagged. -/
theorem check_tile_checked {b : Board} {i j : Nat}
    (h : b.tile_status i j = TILE_CHECKED) :
    check_tile b i j = { b with
      tile_status := update2 b.tile_status i j TILE_CLOSED
      n_mines_left := b.n_mines_left + 1 } := by
  unfold check_tile
  rw [if_neg (by rw [h]; simp [TILE_CHECKED, TILE_CLOSED]), if_pos h]

/-- Case analysis of `_check_tile`: any other tile is left alone. -/
theorem check_tile_other {b : Board} {i j : Nat}
    (h0 : ¬(b.tile_status i j = TILE_CLOSED))
    (h1 : ¬(b.tile_status i j = TILE_CHECKED)) :
    check_tile b i j = b := by
  unfold check_tile
  rw [if_neg h0, if_neg h1]

/-- C9: flag toggling is its own inverse: two successive `_check_tile`
calls on the same cell restore every tile status and the
`n_mines_left` display counter, whatever the board state. -/
theorem C9_toggle_involution (b : Board) (i j k l : Nat) :
    (check_tile (check_tile b i j) i j).tile_status k l = b.tile_status k l ∧
      (check_tile (check_tile b i j) i j).n_mines_left = b.n_mines_left := by
  by_cases h0 : b.tile_status i j = TILE_CLOSED
  · have hc1 := check_tile_closed h0
    have hs1 : (check_tile b i j).tile_status i j = TILE_CHECKED := by
      rw [hc1]
      exact update2_same _ _ _ _
    have hc2 := check_tile_checked hs1
    rw [hc2]
    constructor
    · show update2 (check_tile b i j).tile_status i j TILE_CLOSED k l
        = b.tile_status k l
      by_cases hkl : k = i ∧ l = j
      · rw [hkl.1, hkl.2, update2_same, h0]
      · rw [update2_ne _ _ _ _ hkl, hc1]
        show update2 b.tile_status i j TILE_CHECKED k l = b.tile_status k l
        exact update2_ne _ _ _ _ hkl
    · show (check_tile b i j).n_mines_left + 1 = b.n_mines_left
      rw [hc1]
      show b.n_mines_left - 1 + 1 = b.n_mines_left
      ring
  · by_cases h1 : b.tile_status i j = TILE_CHECKED
    · have hc1 := check_tile_checked h1
      have hs1 : (check_tile b i j).tile_status i j = TILE_CLOSED := by
        rw [hc1]
        exact update2_same _ _ _ _
      have hc2 := check_tile_closed hs1
      rw [hc2]
      constructor
      · show update2 (check_tile b i j).tile_status i j TILE_CHECKED k l
          = b.tile_status k l
        by_cases hkl : k = i ∧ l = j
        · rw [hkl.1, hkl.2, update2_same, h1]
        · rw [update2_ne _ _ _ _ hkl, hc1]
          show update2 b.tile_status i j TILE_CLOSED k l = b.tile_status k l
          exact update2_ne _ _ _ _ hkl
      · show (check_tile b i j).n_mines_left - 1 = b.n_mines_left
        rw [hc1]
        show b.n_mines_left + 1 - 1 = b.n_mines_left
        ring
    · have hc1 := check_tile_other h0 h1
      rw [hc1, hc1]
      exact ⟨rfl, rfl⟩

/-- C10: the first open on a `before_start` board never produces
`game_over`: the mine test reads the pre-placement grid (no mines yet),
so the board comes out `running` or `victory`, and when it stays
`running` the clicked cell is opened by the flood fill. -/
theorem C10_first_open_no_game_over (b : Board) (sel : List (Nat × Nat))
    (i j : Nat)
    (hbs : b.game_status = "before_start")
    (hclosed : b.tile_status i j = TILE_CLOSED)
    (hnomine : b.is_mine i j = false) :
    (open_tile b sel i j).game_status ≠ "game_over" ∧
      ((open_tile b sel i j).game_status = "running" ∨
        (open_tile b sel i j).game_status = "victory") ∧
      ((open_tile b sel i j).game_status = "running" →
        (open_tile b sel i j).tile_status i j = TILE_OPENED) := by
  have hnc : ¬(b.tile_status i j = TILE_CHECKED) := by
    rw [hclosed]
    simp [TILE_CLOSED, TILE_CHECKED]
  have hnm : ¬(b.is_mine i j = true) := by
    rw [hnomine]
    simp
  set bp : Board := { put_mines b sel with game_status := "running" } with hbp
  have hopen : open_tile b sel i j = open_tiles bp i j := by
    unfold open_tile
    rw [if_neg hnc, if_neg hnm, if_pos hclosed, if_pos hbs]
  rw [hopen]
  have hloopframe := open_tiles_loop_frame (2 * bp.n_rows * bp.n_cols + 1)
    (open_one bp i j) [(i, j)]
  set b2 := open_tiles_loop (2 * bp.n_rows * bp.n_cols + 1)
    (open_one bp i j) [(i, j)] with hb2
  have hgs2 : b2.game_status = "running" := hloopframe.1
  have hops : b2.tile_status i j = TILE_OPENED := by
    apply open_tiles_loop_opened_stays
    show update2 bp.tile_status i j TILE_OPENED i j = TILE_OPENED
    exact update2_same _ _ _ _
  have hot : open_tiles bp i j = if b2.tiles_to_open = 0 then
      { b2 with
        game_status := "victory"
        n_mines_left := 0
        tile_status := fun k l =>
          if b2.is_mine k l then TILE_CHECKED else b2.tile_status k l }
    else b2 := rfl
  rw [hot]
  by_cases hvic : b2.tiles_to_open = 0
  · rw [if_pos hvic]
    refine ⟨by simp, Or.inr rfl, ?_⟩
    intro h
    exact absurd h (by simp)
  · rw [if_neg hvic]
    rw [hgs2]
    exact ⟨by simp, Or.inl rfl, fun _ => hops⟩

/-- C3, counterexample: on the accepted degenerate 1×1 board with 1
mine, the first open drives `tiles_to_open` to −1, so it does not stay
nonnegative. -/
theorem C3_counterexample :
    (board_init 1 1 1).n_mines = (board_init 1 1 1).n_rows * (board_init 1 1 1).n_cols ∧
      (open_tile (board_init 1 1 1) [(0, 0)] 0 0).tiles_to_open < 0 := by
  exact ⟨rfl, by decide⟩

/-- C5, counterexample: on the 1×1 board with 1 mine, opening the only
cell does not yield `game_over` (the claim), but `running`: the mine
test precedes lazy placement. `[(0, 0)]` is the only draw
`random.sample` can return, since the eligible list is exactly
`[(0, 0)]`. -/
theorem C5_counterexample :
    allowed_positions 1 1 1 0 0 = [(0, 0)] ∧
      (open_tile (board_init 1 1 1) [(0, 0)] 0 0).game_status = "running" ∧
      (open_tile (board_init 1 1 1) [(0, 0)] 0 0).game_status ≠ "game_over" := by
  refine ⟨by decide, by decide, by decide⟩

/-- C6, counterexample: after the first open on the degenerate 1×1
board with 1 mine, the board is `running` (neither `game_over` nor
`victory`) and yet the opened cell is a mine. -/
theorem C6_counterexample :
    (open_tile (board_init 1 1 1) [(0, 0)] 0 0).is_mine 0 0 = true ∧
      (open_tile (board_init 1 1 1) [(0, 0)] 0 0).tile_status 0 0 = TILE_OPENED ∧
      (open_tile (board_init 1 1 1) [(0, 0)] 0 0).game_status ≠ "game_over" ∧
      (open_tile (board_init 1 1 1) [(0, 0)] 0 0).game_status ≠ "victory" := by
  refine ⟨by decide, by decide, by decide, by decide⟩

/-- C8, counterexample: on a `before_start` board a right click is a
no-op — the claim's `BeforeStart` toggling behavior (closed becomes
flagged, estimate decremented) does not happen, because
`on_mouse_down` returns early for `before_start`. -/
theorem C8_counterexample :
    (board_init 1 1 0).game_status = "before_start" ∧
      (board_init 1 1 0).tile_status 0 0 = TILE_CLOSED ∧
      (on_mouse_down (board_init 1 1 0) RIGHT_BUTTON (some 0) (some 0)).tile_status 0 0
        = TILE_CLOSED ∧
      (on_mouse_down (board_init 1 1 0) RIGHT_BUTTON (some 0) (some 0)).tile_status 0 0
        ≠ TILE_CHECKED ∧
      (on_mouse_down (board_init 1 1 0) RIGHT_BUTTON (some 0) (some 0)).n_mines_left
        = (board_init 1 1 0).n_mines_left := by
  refine ⟨rfl, rfl, by decide, by decide, by decide⟩

/-- C8 amended: `toggleFlag` (right click) is a no-op unless the board
is `Running` (in `BeforeStart`, `Victory` and `GameOver` the handler
returns early); while running, a `Closed` tile becomes `Flagged` with
the estimate decremented, a `Flagged` tile reverts to `Closed` with the
estimate incremented, and an `Opened` tile is left alone. -/
theorem C8_amended (b : Board) (i j : Nat) :
    ((b.game_status = "before_start" ∨ b.game_status = "victory"
        ∨ b.game_status = "game_over") →
      on_mouse_down b RIGHT_BUTTON (some i) (some j) = b) ∧
    (b.game_status = "running" →
      on_mouse_down b RIGHT_BUTTON (some i) (some j) = check_tile b i j ∧
      (b.tile_status i j = TILE_CLOSED →
        (check_tile b i j).tile_status i j = TILE_CHECKED ∧
        (check_tile b i j).n_mines_left = b.n_mines_left - 1) ∧
      (b.tile_status i j = TILE_CHECKED →
        (check_tile b i j).tile_status i j = TILE_CLOSED ∧
        (check_tile b i j).n_mines_left = b.n_mines_left + 1) ∧
      (b.tile_status i j = TILE_OPENED → check_tile b i j = b)) := by
  constructor
  · intro h
    unfold on_mouse_down
    rw [if_pos h]
  · intro hrun
    have hguard : ¬(b.game_status = "before_start" ∨ b.game_status = "victory"
        ∨ b.game_status = "game_over") := by
      rw [hrun]
      intro h
      rcases h with h | h | h <;> simp at h
    refine ⟨?_, ?_, ?_, ?_⟩
    · unfold on_mouse_down
      rw [if_neg hguard, if_pos rfl]
    · intro hcl
      rw [check_tile_closed hcl]
      exact ⟨update2_same _ _ _ _, rfl⟩
    · intro hck
      rw [check_tile_checked hck]
      exact ⟨update2_same _ _ _ _, rfl⟩
    · intro hop
      apply check_tile_other
      · rw [hop]
        simp [TILE_OPENED, TILE_CLOSED]
      · rw [hop]
        simp [TILE_OPENED, TILE_CHECKED]

/-- C8 amended, witness at a concrete running board. -/
theorem C8_witness :
    on_mouse_down runningBoard RIGHT_BUTTON (some 0) (some 0)
        = check_tile runningBoard 0 0 ∧
      (check_tile runningBoard 0 0).tile_status 0 0 = TILE_CHECKED :=
  ⟨((C8_amended runningBoard 0 0).2 rfl).1,
    (((C8_amended runningBoard 0 0).2 rfl).2.1 rfl).1⟩

/-- C5 amended: on the 1×1 board with 1 mine, the safety exemption
forces the sole cell to receive the mine, but the first open does not
detonate it: the mine test precedes lazy placement, so the board
transitions to `running` with the mined cell opened and
`tiles_to_open = −1`. -/
theorem C5_amended (sel : List (Nat × Nat))
    (hs : SampleValid (board_init 1 1 1) sel 0 0) :
    (open_tile (board_init 1 1 1) sel 0 0).game_status = "running" ∧
      (open_tile (board_init 1 1 1) sel 0 0).is_mine 0 0 = true ∧
      (open_tile (board_init 1 1 1) sel 0 0).tile_status 0 0 = TILE_OPENED ∧
      (open_tile (board_init 1 1 1) sel 0 0).tiles_to_open = -1 := by
  obtain ⟨hnd, hlen, hsub⟩ := hs
  have hal : allowed_positions 1 1 1 0 0 = [(0, 0)] := by decide
  have hlen1 : sel.length = 1 := hlen
  have hsel : sel = [(0, 0)] := by
    cases sel with
    | nil => simp at hlen1
    | cons p rest =>
      cases rest with
      | nil =>
        have hp : p ∈ allowed_positions 1 1 1 0 0 :=
          hsub p (List.mem_cons_self _ _)
        rw [hal] at hp
        rw [List.mem_singleton.mp hp]
      | cons q r => simp at hlen1
  rw [hsel]
  refine ⟨by decide, by decide, by decide, by decide⟩

/-- C5 amended, witness at the only valid draw. -/
theorem C5_witness :
    SampleValid (board_init 1 1 1) [(0, 0)] 0 0 ∧
      (open_tile (board_init 1 1 1) [(0, 0)] 0 0).tiles_to_open = -1 :=
  ⟨by decide, (C5_amended [(0, 0)] (by decide)).2.2.2⟩

/-- C3 amended: for every consistent running board (as arises for
`mineCount < rows*cols`, where `tiles_to_open` counts the not-yet-opened
safe cells, closed or flagged — `_check_tile` never touches the
counter), a successful reveal strictly decreases `tiles_to_open`, keeps
it nonnegative, and it ends at exactly 0 iff the board transitions to
`Victory`, at which point `n_mines_left` is set to 0 and every in-grid
mined cell is flagged. -/
theorem C3_amended {b : Board} {i j : Nat} (hinv : RunningInv b)
    (hi : i < b.n_rows) (hj : j < b.n_cols)
    (hclosed : b.tile_status i j = TILE_CLOSED)
    (hsafe : b.is_mine i j = false) :
    (open_tiles b i j).tiles_to_open < b.tiles_to_open ∧
      0 ≤ (open_tiles b i j).tiles_to_open ∧
      ((open_tiles b i j).tiles_to_open = 0 ↔
        (open_tiles b i j).game_status = "victory") ∧
      ((open_tiles b i j).game_status = "victory" →
        (open_tiles b i j).n_mines_left = 0 ∧
        ∀ k < b.n_rows, ∀ l < b.n_cols, b.is_mine k l = true →
          (open_tiles b i j).tile_status k l = TILE_CHECKED) := by
  have hspec := open_tiles_spec hinv hi hj hclosed hsafe
  rcases hspec.outcome with h | h
  · obtain ⟨hgs, hinv', hpos, _, _⟩ := h
    refine ⟨hspec.dec, by omega, ?_, ?_⟩
    · constructor
      · intro h0
        omega
      · intro hv
        rw [hgs] at hv
        exact absurd hv (by simp)
    · intro hv
      rw [hgs] at hv
      exact absurd hv (by simp)
  · obtain ⟨hgs, h0, hml0, hmck, _⟩ := h
    refine ⟨hspec.dec, by omega, ⟨fun _ => hgs, fun _ => h0⟩, ?_⟩
    intro _
    exact ⟨hml0, fun k _ l _ hm => hmck k l hm⟩

/-- C3 amended, witness at a concrete running board. -/
theorem C3_witness :
    RunningInv runningBoard ∧
      (open_tiles runningBoard 0 0).tiles_to_open
        < runningBoard.tiles_to_open ∧
      0 ≤ (open_tiles runningBoard 0 0).tiles_to_open :=
  ⟨by decide,
    (C3_amended (b := runningBoard) (i := 0) (j := 0)
      (by decide) (by decide) (by decide) (by decide) (by decide)).1,
    (C3_amended (b := runningBoard) (i := 0) (j := 0)
      (by decide) (by decide) (by decide) (by decide) (by decide)).2.1⟩

/-- C2: the chord rule on a consistent running board. `openCell` on an
Opened cell with `adjacentMineCount > 0` whose count of Flagged
neighbors equals its `adjacentMineCount` runs the chord over the fixed
neighbor enumeration: if no Closed neighbor is mined, every Closed
neighbor is revealed and the board cannot end in `GameOver`; if some
Closed neighbor is mined, the board transitions to `GameOver` with
`losingCell` set to the first mined Closed neighbor in enumeration
order (`List.find?` selects it), that neighbor is marked Opened, and
processing stops there: the mine estimate and every other mined cell's
status are untouched. (A mid-chord victory cannot preempt the
detonation: the flag count matching the adjacency count while a mine
stays closed forces a flag onto a safe neighbor, which no flood fill
opens, so `tiles_to_open` stays positive.) -/
theorem C2_chord_rule {b : Board} (sel : List (Nat × Nat)) {i j : Nat}
    (hinv : RunningInv b) (hi : i < b.n_rows) (hj : j < b.n_cols)
    (hopened : b.tile_status i j = TILE_OPENED)
    (hcount : 0 < b.mine_count i j)
    (hchord : ((get_neighbors b.n_rows b.n_cols i j).countP fun p =>
        decide (b.tile_status p.1 p.2 = TILE_CHECKED)) = b.mine_count i j) :
    ((∀ p ∈ get_neighbors b.n_rows b.n_cols i j,
        ¬(b.tile_status p.1 p.2 = TILE_CLOSED ∧ b.is_mine p.1 p.2 = true)) →
      (open_tile b sel i j).game_status ≠ "game_over" ∧
        ∀ p ∈ get_neighbors b.n_rows b.n_cols i j,
          b.tile_status p.1 p.2 = TILE_CLOSED →
          (open_tile b sel i j).tile_status p.1 p.2 = TILE_OPENED) ∧
    (∀ p, ((get_neighbors b.n_rows b.n_cols i j).find? fun x =>
        decide (b.tile_status x.1 x.2 = TILE_CLOSED)
          && b.is_mine x.1 x.2) = some p →
      (open_tile b sel i j).game_status = "game_over" ∧
        (open_tile b sel i j).losing_indices = some p ∧
        (open_tile b sel i j).tile_status p.1 p.2 = TILE_OPENED ∧
        (open_tile b sel i j).n_mines_left = b.n_mines_left ∧
        ∀ k l, ¬(k = p.1 ∧ l = p.2) → b.is_mine k l = true →
          (open_tile b sel i j).tile_status k l = b.tile_status k l) := by
  have hmine : ¬(b.is_mine i j = true) :=
    fun hm => (hinv.2.2.2 i hi j hj hm) hopened
  have hck : ¬(b.tile_status i j = TILE_CHECKED) := by
    rw [hopened]
    simp [TILE_OPENED, TILE_CHECKED]
  have hcl : ¬(b.tile_status i j = TILE_CLOSED) := by
    rw [hopened]
    simp [TILE_OPENED, TILE_CLOSED]
  have hmc0 : ¬(b.mine_count i j = 0) := by omega
  have hob : open_tile b sel i j
      = chord_loop b (get_neighbors b.n_rows b.n_cols i j) := by
    unfold open_tile
    rw [if_neg hck, if_neg hmine, if_neg hcl, if_neg hmc0, if_pos hchord]
  rw [hob]
  constructor
  · intro hno
    have hcs := chord_loop_spec _ b hinv (get_neighbors_inGrid hi hj)
    have hng : (chord_loop b
        (get_neighbors b.n_rows b.n_cols i j)).game_status ≠ "game_over" := by
      rcases hcs.outcome with h3 | h3 | h3
      · rw [h3.1]
        simp
      · rw [h3.1]
        simp
      · obtain ⟨_, p, hp, hpm, hpcl, _⟩ := h3
        exact absurd ⟨hpcl, hpm⟩ (hno p hp)
    refine ⟨hng, ?_⟩
    intro p hp hpcl
    have hpm : b.is_mine p.1 p.2 = false := by
      cases hxm : b.is_mine p.1 p.2
      · rfl
      · exact absurd ⟨hpcl, hxm⟩ (hno p hp)
    exact hcs.opened p hp hpcl hpm hng
  · intro p hfind
    have hpmem : p ∈ get_neighbors b.n_rows b.n_cols i j :=
      List.mem_of_find?_eq_some hfind
    have hppred := List.find?_some hfind
    rw [Bool.and_eq_true] at hppred
    have hpcl : b.tile_status p.1 p.2 = TILE_CLOSED := of_decide_eq_true hppred.1
    have hpm : b.is_mine p.1 p.2 = true := hppred.2
    obtain ⟨q, hqmem, hqsafe, hqck⟩ :=
      exists_flagged_safe_neighbor hinv.2.1 hi hj hchord hpmem hpm hpcl
    obtain ⟨hq1, hq2⟩ := get_neighbors_inGrid hi hj q hqmem
    exact chord_loop_detonates _ b q p hinv (get_neighbors_inGrid hi hj)
      hq1 hq2 hqsafe hqck hfind

/-- C2, witness at a concrete reachable chord configuration: on
`chordBoard` the chord on (0,1) detonates the first (and only) closed
mined neighbor (1,2) into game over, opening it and recording it as the
losing cell. -/
theorem C2_witness :
    (open_tile chordBoard [] 0 1).game_status = "game_over" ∧
      (open_tile chordBoard [] 0 1).losing_indices = some (1, 2) ∧
      (open_tile chordBoard [] 0 1).tile_status 1 2 = TILE_OPENED ∧
      (open_tile chordBoard [] 0 1).n_mines_left = chordBoard.n_mines_left ∧
      (∀ k l, ¬(k = 1 ∧ l = 2) → chordBoard.is_mine k l = true →
        (open_tile chordBoard [] 0 1).tile_status k l
          = chordBoard.tile_status k l) :=
  (C2_chord_rule (b := chordBoard) [] (i := 0) (j := 1)
      (by decide) (by decide) (by decide) (by decide) (by decide)
      (by decide)).2
    (1, 2) (by decide)

/-- C6 amended: for boards with `mineCount < rows*cols` (excluding the
degenerate total-mine board), every command preserves the opened-mine
invariant: after `openCell` or `toggleFlag` from a consistent running
or before-start state, an in-grid mined cell is Opened only when the
board is in `GameOver`, and then it is exactly the recorded
`losingCell` (in `Victory` all mines end Flagged instead). -/
theorem C6_amended {b : Board} (sel : List (Nat × Nat)) {i j : Nat}
    (hi : i < b.n_rows) (hj : j < b.n_cols)
    (hpre : RunningInv b ∨ (BeforeStartInv b
      ∧ b.n_mines < b.n_rows * b.n_cols ∧ SampleValid b sel i j)) :
    OpenedMineOK (open_tile b sel i j) ∧ OpenedMineOK (check_tile b i j) := by
  have hbase : ∀ k < b.n_rows, ∀ l < b.n_cols,
      b.is_mine k l = true → b.tile_status k l ≠ TILE_OPENED := by
    rcases hpre with h | h
    · exact h.2.2.2
    · intro k hk l hl hm
      rw [h.1.2.1 k hk l hl]
      simp [TILE_CLOSED, TILE_OPENED]
  have hcheck : OpenedMineOK (check_tile b i j) := by
    have hframe : (check_tile b i j).n_rows = b.n_rows ∧
        (check_tile b i j).n_cols = b.n_cols ∧
        (check_tile b i j).is_mine = b.is_mine ∧
        (∀ k l, (check_tile b i j).tile_status k l = TILE_OPENED →
          b.tile_status k l = TILE_OPENED) := by
      by_cases h0 : b.tile_status i j = TILE_CLOSED
      · rw [check_tile_closed h0]
        refine ⟨rfl, rfl, rfl, ?_⟩
        intro k l hop
        have hop' : update2 b.tile_status i j TILE_CHECKED k l
            = TILE_OPENED := hop
        by_cases hkl : k = i ∧ l = j
        · rw [hkl.1, hkl.2, update2_same] at hop'
          exact absurd hop' (by simp [TILE_CHECKED, TILE_OPENED])
        · rwa [update2_ne _ _ _ _ hkl] at hop'
      · by_cases h1 : b.tile_status i j = TILE_CHECKED
        · rw [check_tile_checked h1]
          refine ⟨rfl, rfl, rfl, ?_⟩
          intro k l hop
          have hop' : update2 b.tile_status i j TILE_CLOSED k l
              = TILE_OPENED := hop
          by_cases hkl : k = i ∧ l = j
          · rw [hkl.1, hkl.2, update2_same] at hop'
            exact absurd hop' (by simp [TILE_CLOSED, TILE_OPENED])
          · rwa [update2_ne _ _ _ _ hkl] at hop'
        · rw [check_tile_other h0 h1]
          exact ⟨rfl, rfl, rfl, fun k l hop => hop⟩
    obtain ⟨hfr, hfc, hfm, hfs⟩ := hframe
    intro k hk l hl hm hop
    rw [hfr] at hk
    rw [hfc] at hl
    rw [hfm] at hm
    exact absurd (hfs k l hop) (hbase k hk l hl hm)
  refine ⟨?_, hcheck⟩
  by_cases hck : b.tile_status i j = TILE_CHECKED
  · have hob : open_tile b sel i j = b := by
      unfold open_tile
      rw [if_pos hck]
    rw [hob]
    intro k hk l hl hm hop
    exact absurd hop (hbase k hk l hl hm)
  · by_cases hmine : b.is_mine i j = true
    · have hob : open_tile b sel i j = { b with
          game_status := "game_over"
          losing_indices := some (i, j)
          tile_status := update2 b.tile_status i j TILE_OPENED } := by
        unfold open_tile
        rw [if_neg hck, if_pos hmine]
      rw [hob]
      intro k hk l hl hm hop
      by_cases hkl : k = i ∧ l = j
      · exact ⟨rfl, by rw [hkl.1, hkl.2]⟩
      · exfalso
        have hop' : update2 b.tile_status i j TILE_OPENED k l
            = TILE_OPENED := hop
        rw [update2_ne _ _ _ _ hkl] at hop'
        exact absurd hop' (hbase k hk l hl hm)
    · by_cases hcl : b.tile_status i j = TILE_CLOSED
      · by_cases hbs : b.game_status = "before_start"
        · rcases hpre with h | h
          · exfalso
            have hcontra : ("running" : String) = "before_start" := h.1 ▸ hbs
            exact absurd hcontra (by decide)
          · obtain ⟨hbsi, hlt, hsv⟩ := h
            have hsetup := before_start_setup hbsi hsv hi hj
            have hob : open_tile b sel i j
                = open_tiles { put_mines b sel with game_status := "running" }
                    i j := by
              unfold open_tile
              rw [if_neg hck, if_neg hmine, if_pos hcl, if_pos hbs]
            rw [hob]
            have hclosed_bp : ({ put_mines b sel with
                game_status := "running" } : Board).tile_status i j
                = TILE_CLOSED := hbsi.2.1 i hi j hj
            have hsafe_bp := hsetup.2 hlt
            have hspec := open_tiles_spec hsetup.1
              (show i < ({ put_mines b sel with
                game_status := "running" } : Board).n_rows from hi)
              (show j < ({ put_mines b sel with
                game_status := "running" } : Board).n_cols from hj)
              hclosed_bp hsafe_bp
            rcases hspec.outcome with hrr | hvv
            · intro k hk l hl hm hop
              exact absurd hop (hrr.2.1.2.2.2 k hk l hl hm)
            · intro k hk l hl hm hop
              have hm' : ({ put_mines b sel with
                  game_status := "running" } : Board).is_mine k l = true := by
                rw [← hspec.mine_fun]
                exact hm
              rw [hvv.2.2.2.1 k l hm'] at hop
              exact absurd hop (by simp [TILE_CHECKED, TILE_OPENED])
        · have hrun : RunningInv b := by
            rcases hpre with h | h
            · exact h
            · exact absurd h.1.1 hbs
          have hsafe : b.is_mine i j = false := by
            cases hbm : b.is_mine i j
            · rfl
            · exact absurd hbm hmine
          have hob : open_tile b sel i j = open_tiles b i j := by
            unfold open_tile
            rw [if_neg hck, if_neg hmine, if_pos hcl, if_neg hbs]
          rw [hob]
          have hspec := open_tiles_spec hrun hi hj hcl hsafe
          rcases hspec.outcome with hrr | hvv
          · intro k hk l hl hm hop
            exact absurd hop (hrr.2.1.2.2.2 k hk l hl hm)
          · intro k hk l hl hm hop
            have hm' : b.is_mine k l = true := by
              rw [← hspec.mine_fun]
              exact hm
            rw [hvv.2.2.2.1 k l hm'] at hop
            exact absurd hop (by simp [TILE_CHECKED, TILE_OPENED])
      · have hrun : RunningInv b := by
          rcases hpre with h | h
          · exact h
          · exact absurd (h.1.2.1 i hi j hj) hcl
        by_cases hmc0 : b.mine_count i j = 0
        · have hob : open_tile b sel i j = b := by
            unfold open_tile
            rw [if_neg hck, if_neg hmine, if_neg hcl, if_pos hmc0]
          rw [hob]
          intro k hk l hl hm hop
          exact absurd hop (hbase k hk l hl hm)
        · by_cases hchord : ((get_neighbors b.n_rows b.n_cols i j).countP
              fun p => decide (b.tile_status p.1 p.2 = TILE_CHECKED))
              = b.mine_count i j
          · have hob : open_tile b sel i j
                = chord_loop b (get_neighbors b.n_rows b.n_cols i j) := by
              unfold open_tile
              rw [if_neg hck, if_neg hmine, if_neg hcl, if_neg hmc0,
                if_pos hchord]
            rw [hob]
            have hcs := chord_loop_spec _ b hrun (get_neighbors_inGrid hi hj)
            rcases hcs.outcome with h3 | h3 | h3
            · intro k hk l hl hm hop
              exact absurd hop (h3.2.1.2.2.2 k hk l hl hm)
            · intro k hk l hl hm hop
              have hmb : b.is_mine k l = true := by
                rw [← hcs.mine_fun]
                exact hm
              rw [h3.2.2.2 k l hmb] at hop
              exact absurd hop (by simp [TILE_CHECKED, TILE_OPENED])
            · obtain ⟨hgs3, p, hp, hpm, hpcl, hli, hopn, hml, hother⟩ := h3
              intro k hk l hl hm hop
              by_cases hkl : k = p.1 ∧ l = p.2
              · refine ⟨hgs3, ?_⟩
                rw [hli, hkl.1, hkl.2]
              · exfalso
                have hmb : b.is_mine k l = true := by
                  rw [← hcs.mine_fun]
                  exact hm
                rw [hother k l hkl hmb] at hop
                rw [hcs.rows] at hk
                rw [hcs.cols] at hl
                exact absurd hop (hbase k hk l hl hmb)
          · have hob : open_tile b sel i j = b := by
              unfold open_tile
              rw [if_neg hck, if_neg hmine, if_neg hcl, if_neg hmc0,
                if_neg hchord]
            rw [hob]
            intro k hk l hl hm hop
            exact absurd hop (hbase k hk l hl hm)

/-- C6 amended, witness at a concrete running board and open command. -/
theorem C6_witness :
    OpenedMineOK (open_tile runningBoard [] 0 0) ∧
      OpenedMineOK (check_tile runningBoard 0 0) :=
  C6_amended (b := runningBoard) [] (i := 0) (j := 0)
    (by decide) (by decide) (Or.inl (by decide))

/-- C1, witness at a concrete 3×4 board with 3 mines. -/
theorem C1_witness :
    (board_init 3 4 3).n_mines
        ≤ (board_init 3 4 3).n_rows * (board_init 3 4 3).n_cols - 9 ∧
      (put_mines (board_init 3 4 3) [(0, 2), (0, 3), (1, 2)]).is_mine 1 1
        = false :=
  ⟨by decide,
    @C1_first_click_safety (board_init 3 4 3) [(0, 2), (0, 3), (1, 2)] 0 0
      (by decide) (by decide) (by decide) 1 (by decide) 1 (by decide)
      (by decide) (by decide)⟩

/-- C4, witness at a concrete 2×3 board with 2 mines. -/
theorem C4_witness :
    (put_mines (board_init 2 3 2) [(0, 0), (1, 2)]).mine_count 1 1
      = minedNeighborCount (put_mines (board_init 2 3 2) [(0, 0), (1, 2)]) 1 1 :=
  @C4_adjacent_counts (board_init 2 3 2) [(0, 0), (1, 2)] 0 2
    (by decide) (by decide) 1 (by decide) 1 (by decide)

/-- C10, witness at a concrete 2×2 before-start board. -/
theorem C10_witness :
    (open_tile (board_init 2 2 1) [] 0 0).game_status ≠ "game_over" :=
  (C10_first_open_no_game_over (board_init 2 2 1) [] 0 0 rfl rfl rfl).1
